import Mathlib

/-!
# Verification of the `ryl` YAML-linter core

A shallow embedding, in Lean 4, of the configuration loader and rule
engines of the `ryl` repository (a Rust re-implementation of yamllint),
together with theorems settling the frozen claims about it.

Conventions used throughout:

* Rust `usize` values that are only ever indices / counts are modelled as
  `Nat` (none of the embedded code paths can overflow in a way that is
  observable by the claims).
* Fallible Rust functions returning `Result<T, String>` are modelled as
  `Except String T`.
* Recursion of the config loader across `extends` chains is modelled with
  an explicit fuel parameter (structural recursion on `Nat`); running out
  of fuel yields `none`.  The Rust loader has no recursion bound, so a
  self-extending config makes every fuel bound run out (claim C4).
* The YAML *text* parser (the external `saphyr` crate) is out of scope of
  the repository core.  Config documents therefore enter the embedding
  already parsed, as `YVal` trees, and the environment interface
  (`config.rs` trait `Env`) hands back parsed documents directly.
* Strings scanned by line-oriented rules are modelled as `List Char`
  per line.  Rust byte indices into a line are mapped to char indices;
  the source only ever slices at char boundaries, and `column_at`
  translates byte indices back to char counts, so the two views agree.
-/

namespace Ryl

/-! ## YAML value model

`YVal` mirrors `saphyr::YamlOwned` as used by `src/config.rs`: scalars
(string / integer / boolean / null), sequences and mappings.  A mapping
is an insertion-ordered association list, which matches the behaviour of
the `saphyr` mapping type relied upon by the source (iteration in
insertion order, `insert` appends a fresh key at the end). -/

inductive YVal where
  | str  : String → YVal
  | int  : Int → YVal
  | bool : Bool → YVal
  | null : YVal
  | seq  : List YVal → YVal
  | map  : List (YVal × YVal) → YVal
deriving Inhabited

namespace YVal

/-- `YamlOwned::as_str`. -/
def asStr : YVal → Option String
  | .str s => some s
  | _ => none

/-- `YamlOwned::as_sequence`. -/
def asSeq : YVal → Option (List YVal)
  | .seq xs => some xs
  | _ => none

/-- `YamlOwned::as_mapping`. -/
def asMapping : YVal → Option (List (YVal × YVal))
  | .map kvs => some kvs
  | _ => none

/-- Does this mapping key equal the string-scalar key `s`?  In the
source, `as_mapping_get` looks a mapping up with the key
`YamlOwned::Value(ScalarOwned::String(s))`; only a string scalar can be
equal to it. -/
def isKey (k : YVal) (s : String) : Bool :=
  match k with
  | .str t => t == s
  | _ => false

/-- Lookup in an ordered mapping (first matching entry), as
`as_mapping_get` does. -/
def ymGetVal : List (YVal × YVal) → String → Option YVal
  | [], _ => none
  | (k, v) :: rest, s => if isKey k s then some v else ymGetVal rest s

/-- `doc.as_mapping_get(s)`: `none` when the node is not a mapping or
the key is absent. -/
def getKey (v : YVal) (s : String) : Option YVal :=
  match v with
  | .map kvs => ymGetVal kvs s
  | _ => none

end YVal

open YVal

/-! ## Deep merge (`deep_merge_yaml_owned`, src/config.rs)

When both destination and source are mappings, merge per key (skipping
non-string source keys); otherwise the source replaces the destination
wholesale.  An existing destination entry is merged in place
(`as_mapping_get_mut` finds the first matching entry); a missing key is
inserted at the end of the mapping. -/

mutual

/-- `deep_merge_yaml_owned(dst, src)`. -/
def deepMerge : YVal → YVal → YVal
  | .map d, .map s => .map (deepMergeList d s)
  | _, src => src
termination_by _ src => (sizeOf src, 0, 0)


/-- The `for (k, v) in src_map` loop of `deep_merge_yaml_owned`. -/
def deepMergeList : List (YVal × YVal) → List (YVal × YVal) → List (YVal × YVal)
  | d, [] => d
  | d, (k, v) :: rest =>
    match k.asStr with
    | none => deepMergeList d rest
    | some s =>
      if (ymGetVal d s).isSome then
        deepMergeList (mergeAt d s v) rest
      else
        deepMergeList (d ++ [(.str s, v)]) rest
termination_by _ s => (sizeOf s, 0, 0)


/-- In-place merge of `v` into the first entry keyed `s`
(`as_mapping_get_mut` + recursive `deep_merge_yaml_owned`). -/
def mergeAt : List (YVal × YVal) → String → YVal → List (YVal × YVal)
  | [], _, _ => []
  | (k, old) :: rest, s, v =>
    if isKey k s then (k, deepMerge old v) :: rest
    else (k, old) :: mergeAt rest s v
termination_by d _ v => (sizeOf v, 1, sizeOf d)


end

/-! ## Config model (`YamlLintConfig`, src/config.rs)

The compiled matchers (`ignore_matcher`, `yaml_matcher`) are produced by
`finalize` from external crates (`ignore`, `globset`) and are functions
of the pattern lists below; they carry no information of their own and
none of the claims mention them, so they are not part of the model.
`rules` is a `BTreeMap<String, YamlOwned>` in the source; it is modelled
as a key-sorted association list (fresh keys are inserted at their sorted
position, mirroring B-tree iteration order). -/

structure LintConfig where
  ignore_patterns : List String
  ignore_from_files : List String
  rule_names : List String
  rules : List (String × YVal)
  yaml_file_patterns : List String
  locale : Option String
deriving Inhabited

/-- `DEFAULT_YAML_FILE_PATTERNS`. -/
def defaultYamlFilePatterns : List String := ["*.yaml", "*.yml", ".yamllint"]

/-- `YamlLintConfig::default()`. -/
def LintConfig.default : LintConfig :=
  { ignore_patterns := []
    ignore_from_files := []
    rule_names := []
    rules := []
    yaml_file_patterns := defaultYamlFilePatterns
    locale := none }

/-- `BTreeMap::get` on the rules map. -/
def rulesGet : List (String × YVal) → String → Option YVal
  | [], _ => none
  | (k, w) :: rest, n => if k == n then some w else rulesGet rest n

/-- Lexicographic order on char lists; on UTF-8 strings it coincides
with the byte order `BTreeMap<String, _>` sorts by. -/
def charsLt : List Char → List Char → Bool
  | [], [] => false
  | [], _ :: _ => true
  | _ :: _, [] => false
  | a :: as, b :: bs =>
    if a.toNat < b.toNat then true
    else if b.toNat < a.toNat then false
    else charsLt as bs

/-- String order used by the `rules` B-tree map. -/
def strLt (a b : String) : Bool := charsLt a.data b.data

/-- `BTreeMap::insert` of a key known to be absent: place the new entry
at its sorted position. -/
def rulesInsert : List (String × YVal) → String → YVal → List (String × YVal)
  | [], n, v => [(n, v)]
  | (k, w) :: rest, n, v =>
    if strLt n k then (n, v) :: (k, w) :: rest
    else (k, w) :: rulesInsert rest n v

/-- `BTreeMap::get_mut` followed by `deep_merge_yaml_owned` in place. -/
def rulesMergeAt : List (String × YVal) → String → YVal → List (String × YVal)
  | [], _, _ => []
  | (k, w) :: rest, n, v =>
    if k == n then (k, deepMerge w v) :: rest
    else (k, w) :: rulesMergeAt rest n v

/-- The `for (name, val) in other.rules` loop of
`YamlLintConfig::merge_from`: deep-merge or insert each rule value and
accumulate unseen names at the end of `rule_names`. -/
def mergeRules : List (String × YVal) → List String → List (String × YVal) →
    List (String × YVal) × List String
  | rs, names, [] => (rs, names)
  | rs, names, (n, v) :: rest =>
    let rs' := if (rulesGet rs n).isSome then rulesMergeAt rs n v else rulesInsert rs n v
    let names' := if names.contains n then names else names ++ [n]
    mergeRules rs' names' rest

/-- `YamlLintConfig::merge_from(self, other)`. -/
def mergeFrom (self other : LintConfig) : LintConfig :=
  let rn := mergeRules self.rules self.rule_names other.rules
  { ignore_patterns := self.ignore_patterns ++ other.ignore_patterns
    ignore_from_files := self.ignore_from_files ++ other.ignore_from_files
    rules := rn.1
    rule_names := rn.2
    yaml_file_patterns :=
      if other.yaml_file_patterns.isEmpty then self.yaml_file_patterns
      else other.yaml_file_patterns
    locale :=
      match self.locale with
      | none => other.locale
      | some l => some l }

/-! ## Pattern loading helpers (src/config.rs) -/

/-- Split a char list at every `\n` (each `\n` terminates a piece; a
trailing `\n` therefore yields a final empty piece). -/
def splitNl : List Char → List (List Char)
  | [] => [[]]
  | c :: rest =>
    let r := splitNl rest
    if c == '\n' then [] :: r
    else
      match r with
      | [] => [[c]]
      | l :: ls => (c :: l) :: ls

/-- Strip one trailing `\r`, as Rust `str::lines()` does per line. -/
def stripOneCR (l : List Char) : List Char :=
  if l.getLast? == some '\r' then l.dropLast else l

/-- Rust `str::lines()`: split on `\n`, drop the final empty piece
produced by a trailing newline, strip one trailing `\r` per line. -/
def rustLines (s : String) : List String :=
  match s.data with
  | [] => []
  | _ :: _ =>
    let parts := splitNl s.data
    let parts := if parts.getLast? == some [] then parts.dropLast else parts
    parts.map fun l => String.mk (stripOneCR l)

/-- `str::trim().is_empty()`: nothing but whitespace. -/
def isBlankStr (s : String) : Bool := s.data.all Char.isWhitespace

/-- `trim_end_matches(['\r'])`: drop every trailing `\r`. -/
def trimEndCRs (s : String) : String :=
  String.mk ((s.data.reverse.dropWhile fun c => c == '\r').reverse)

/-- `patterns_from_scalar`: lines of the scalar, trailing `\r` removed,
blank lines dropped. -/
def patternsFromScalar (value : String) : List String :=
  ((rustLines value).map trimEndCRs).filter fun l => !isBlankStr l

/-- The per-item loop of `load_ignore_patterns` over a sequence node. -/
def loadIgnoreSeq : List YVal → Except String (List String)
  | [] => .ok []
  | it :: rest =>
    match it.asStr with
    | none => .error "invalid config: ignore should contain file patterns"
    | some s => do
      let tail ← loadIgnoreSeq rest
      pure (patternsFromScalar s ++ tail)

/-- `load_ignore_patterns`. -/
def loadIgnorePatterns (node : YVal) : Except String (List String) :=
  match node.asSeq with
  | some xs => loadIgnoreSeq xs
  | none =>
    match node.asStr with
    | some s => .ok (patternsFromScalar s)
    | none => .error "invalid config: ignore should contain file patterns"

/-- The per-item loop of `load_ignore_from_files` over a sequence node. -/
def loadIgnoreFromSeq : List YVal → Except String (List String)
  | [] => .ok []
  | it :: rest =>
    match it.asStr with
    | none =>
      .error "invalid config: ignore-from-file should contain filename(s), either as a list or string"
    | some s => do
      let tail ← loadIgnoreFromSeq rest
      pure (s :: tail)

/-- `load_ignore_from_files`. -/
def loadIgnoreFromFiles (node : YVal) : Except String (List String) :=
  match node.asSeq with
  | some xs => loadIgnoreFromSeq xs
  | none =>
    match node.asStr with
    | some s => .ok [s]
    | none =>
      .error "invalid config: ignore-from-file should contain filename(s), either as a list or string"

/-- The `yaml-files` sequence loop: every element must be a string. -/
def loadYamlFileSeq : List YVal → Except String (List String)
  | [] => .ok []
  | it :: rest =>
    match it.asStr with
    | none => .error "invalid config: yaml-files should be a list of file patterns"
    | some s => do
      let tail ← loadYamlFileSeq rest
      pure (s :: tail)

/-! ## Environment and path resolution (src/config.rs)

The `Env` trait bundles the filesystem and env-var access used by the
loader.  Reading a config file is always immediately followed by parsing
its text with the external YAML parser, so the model's `readDoc` returns
the parsed `YVal` directly (an unreadable *or* unparsable file is an
`Except.error` carrying the corresponding message).  Paths are modelled
as `/`-separated strings. -/

structure EnvIface where
  cwd : String
  readDoc : String → Except String YVal
  pathExists : String → Bool

/-- `Path::is_absolute` for the string path model. -/
def isAbsolutePath (p : String) : Bool := p.data.head? == some '/'

/-- `Path::join` for a relative right-hand side. -/
def joinPath (base entry : String) : String := base ++ "/" ++ entry

/-- `Path::parent` for the string path model (paths not ending in a
slash): `none` for `""` and `"/"`, `some ""` for a bare file name,
otherwise the path without its last component (keeping the root `/`). -/
def parentDir (p : String) : Option String :=
  if p == "" || p == "/" then none
  else if !p.data.contains '/' then some ""
  else
    let rev := p.data.reverse
    match rev.dropWhile fun c => c != '/' with
    | [] => some ""
    | _ :: restRev =>
      if restRev.isEmpty then some "/" else some (String.mk restRev.reverse)

/-- `resolve_extend_path(entry, envx, base_dir)`. -/
def resolveExtendPath (entry : String) (envx : EnvIface) (baseDir : Option String) : String :=
  if isAbsolutePath entry then entry
  else
    let fallback :=
      let f := joinPath envx.cwd entry
      if envx.pathExists f then f else entry
    match baseDir with
    | some b =>
      let j := joinPath b entry
      if envx.pathExists j then j else fallback
    | none => fallback

/-! ## Built-in presets (src/conf/mod.rs)

The presets ship as YAML strings inside the binary; these are their
parsed forms (the parse is performed by the external YAML parser). -/

/-- Parsed form of `conf::DEFAULT` (`"\nrules:\n  trailing-spaces: enable\n  document-end: enable\n"`). -/
def defaultPresetDoc : YVal :=
  .map [(.str "rules",
    .map [(.str "trailing-spaces", .str "enable"),
          (.str "document-end", .str "enable")])]

/-- Parsed form of `conf::RELAXED` (`"\nrules:\n  trailing-spaces: disable\n"`). -/
def relaxedPresetDoc : YVal :=
  .map [(.str "rules", .map [(.str "trailing-spaces", .str "disable")])]

/-- Parsed form of `conf::EMPTY` (`"\nrules: {}\n"`). -/
def emptyPresetDoc : YVal :=
  .map [(.str "rules", .map [])]

/-- `conf::builtin(name)`. -/
def builtin (name : String) : Option YVal :=
  match name with
  | "default" => some defaultPresetDoc
  | "relaxed" => some relaxedPresetDoc
  | "empty" => some emptyPresetDoc
  | _ => none

/-! ## The config loader (`YamlLintConfig::from_yaml_str_with_env`)

Split exactly as the source is: `loadRest` is the non-recursive part of
`from_yaml_str_with_env` that runs after `extends` handling (current
document overrides), and the `extends` plumbing (`apply_extends`,
`extend_from_entry`) recurses through the `recur` parameter, which the
fuel-indexed `loadCfg` ties back to itself with one unit of fuel spent
per nested `from_yaml_str_with_env` call.  `none` means the fuel ran
out; the Rust code has no such bound and simply keeps recursing. -/

/-- The `rules:` mapping loop of `from_yaml_str_with_env`. -/
def applyRulesEntries : LintConfig → List (YVal × YVal) → LintConfig
  | cfg, [] => cfg
  | cfg, (k, v) :: rest =>
    match k.asStr with
    | none => applyRulesEntries cfg rest
    | some name =>
      let rules' :=
        if (rulesGet cfg.rules name).isSome then rulesMergeAt cfg.rules name v
        else rulesInsert cfg.rules name v
      let names' :=
        if cfg.rule_names.contains name then cfg.rule_names
        else cfg.rule_names ++ [name]
      applyRulesEntries { cfg with rules := rules', rule_names := names' } rest

/-- Everything `from_yaml_str_with_env` does after the `extends` key:
the `ignore`/`ignore-from-file` conflict check and the current
document's overrides. -/
def loadRest (doc : YVal) (cfg : LintConfig) : Except String LintConfig := do
  let ignore := doc.getKey "ignore"
  let ignoreFromFile := doc.getKey "ignore-from-file"
  if ignore.isSome && ignoreFromFile.isSome then
    throw "invalid config: ignore and ignore-from-file keys cannot be used together"
  let cfg ←
    match ignore with
    | some node => do
      let pats ← loadIgnorePatterns node
      pure { cfg with ignore_patterns := cfg.ignore_patterns ++ pats }
    | none => pure cfg
  let cfg ←
    match ignoreFromFile with
    | some node => do
      let files ← loadIgnoreFromFiles node
      pure { cfg with ignore_from_files := files }
    | none => pure cfg
  let cfg ←
    match doc.getKey "yaml-files" with
    | some yf =>
      match yf.asSeq with
      | some xs => do
        let pats ← loadYamlFileSeq xs
        pure { cfg with yaml_file_patterns := pats }
      | none => throw "invalid config: yaml-files should be a list of file patterns"
    | none => pure cfg
  let cfg ←
    match doc.getKey "locale" with
    | some node =>
      match node.asStr with
      | some loc => pure { cfg with locale := some loc }
      | none => throw "invalid config: locale should be a string"
    | none => pure cfg
  let cfg :=
    match doc.getKey "rules" with
    | some rules =>
      match rules.asMapping with
      | some m => applyRulesEntries cfg m
      | none => cfg
    | none => cfg
  pure cfg

/-- `extend_from_entry`, with the recursive `from_yaml_str_with_env`
call abstracted into `recur`. -/
def extendFromEntryF
    (recur : YVal → Option EnvIface → Option String → Option (Except String LintConfig))
    (cfg : LintConfig) (entry : String) (env : Option EnvIface) (base : Option String) :
    Option (Except String LintConfig) :=
  match builtin entry with
  | some bdoc =>
    match recur bdoc none none with
    | none => none
    | some (.error _) => some (.error "builtin preset must parse")
    | some (.ok b) => some (.ok (mergeFrom cfg b))
  | none =>
    match env with
    | none =>
      some (.error ("invalid config: extends \x27" ++ entry ++
        "\x27 requires filesystem access for resolution"))
    | some e =>
      let resolved := resolveExtendPath entry e base
      match e.readDoc resolved with
      | .error err =>
        some (.error ("failed to read extended config " ++ resolved ++ ": " ++ err))
      | .ok doc2 =>
        let parent :=
          match parentDir resolved with
          | some pd => pd
          | none =>
            match base with
            | some b => b
            | none => e.cwd
        match recur doc2 (some e) (some parent) with
        | none => none
        | some (.error err) => some (.error err)
        | some (.ok b) => some (.ok (mergeFrom cfg b))

/-- The sequence loop of `apply_extends` (string items extend,
non-string items are skipped). -/
def extendsSeqF
    (recur : YVal → Option EnvIface → Option String → Option (Except String LintConfig))
    (env : Option EnvIface) (base : Option String) :
    LintConfig → List YVal → Option (Except String LintConfig)
  | cfg, [] => some (.ok cfg)
  | cfg, item :: rest =>
    match item.asStr with
    | none => extendsSeqF recur env base cfg rest
    | some s =>
      match extendFromEntryF recur cfg s env base with
      | none => none
      | some (.error e) => some (.error e)
      | some (.ok cfg') => extendsSeqF recur env base cfg' rest

/-- `apply_extends(node)`: a scalar string extends once, a sequence
extends per string item, anything else is a no-op. -/
def applyExtendsF
    (recur : YVal → Option EnvIface → Option String → Option (Except String LintConfig))
    (cfg : LintConfig) (node : YVal) (env : Option EnvIface) (base : Option String) :
    Option (Except String LintConfig) :=
  match node with
  | .seq items => extendsSeqF recur env base cfg items
  | .map _ => some (.ok cfg)
  | scalar =>
    match scalar.asStr with
    | some s => extendFromEntryF recur cfg s env base
    | none => some (.ok cfg)

/-- `from_yaml_str_with_env(s, envx, base_dir)`, fuel-indexed.  One unit
of fuel is spent per (possibly recursive) invocation; `none` means the
fuel bound was exceeded. -/
def loadCfg : Nat → YVal → Option EnvIface → Option String → Option (Except String LintConfig)
  | 0, _, _, _ => none
  | n + 1, doc, env, base =>
    if (doc.asMapping).isNone then some (.error "invalid config: not a mapping")
    else
      let afterExtends : Option (Except String LintConfig) :=
        match doc.getKey "extends" with
        | none => some (.ok LintConfig.default)
        | some node =>
          applyExtendsF (fun d e b => loadCfg n d e b) LintConfig.default node env base
      match afterExtends with
      | none => none
      | some (.error e) => some (.error e)
      | some (.ok cfg) => some (loadRest doc cfg)

/-! ## Lint orchestrator (src/lint.rs)

`lint_file` reads a file, runs each enabled rule in a fixed order,
collects the diagnostics in that order, and finally replaces everything
with a single diagnostic when the external parser reports a fatal
error.  The snapshot under verification contains `lint.rs` itself but
not the rule modules it calls (`rules/trailing_spaces.rs` etc.) nor the
`rule_level` / `is_rule_ignored` methods of `YamlLintConfig`; those
parts are modelled from the spec or abstracted as parameters, as noted
on each definition. -/

/-- `Severity` (src/lint.rs). -/
inductive Severity where
  | error
  | warning
deriving DecidableEq, BEq

/-- Modelled from the spec: `RuleLevel` (declared in `config.rs`, which
this snapshot ships without it) — variants `Error` and `Warning`;
"disabled" is encoded by absence from `rule_level()` results. -/
inductive RuleLevel where
  | error
  | warning
deriving DecidableEq

/-- `impl From<RuleLevel> for Severity` (src/lint.rs). -/
def RuleLevel.toSeverity : RuleLevel → Severity
  | .error => .error
  | .warning => .warning

/-- `LintProblem` (src/lint.rs). -/
structure LintProblem where
  line : Nat
  column : Nat
  level : Severity
  message : String
  rule : Option String
deriving DecidableEq

/-- A rule hit before it is wrapped into a `LintProblem` (the
`Violation` shape shared by the rule modules). -/
structure RViol where
  line : Nat
  column : Nat
  message : String
deriving DecidableEq

/-- The data of a fatal parser error: the marker of the external
`saphyr` parser (0-based column, as used by `syntax_diagnostic`) plus
its `info()` text. -/
structure SyntaxErr where
  line : Nat
  col : Nat
  info : String

/-- Number of chars in a string (Rust `str::chars().count()`). -/
def charCount (s : String) : Nat := s.data.length

/-- Modelled from the spec: the `trailing-spaces` rule
(`rules/trailing_spaces.rs` is absent from the snapshot).  For each
line, report the first run of trailing whitespace (space or tab); the
column points at the first trailing whitespace character, 1-based. -/
def trailingSpacesCheck (content : String) : List RViol :=
  (rustLines content).enum.filterMap fun p =>
    let k := (p.2.data.reverse.takeWhile fun c => c == ' ' || c == '\t').length
    if k == 0 then none
    else some ⟨p.1 + 1, p.2.data.length - k + 1, "trailing spaces"⟩

/-- Modelled from the spec: the `new-line-at-end-of-file` rule
(`rules/new_line_at_end_of_file.rs` is absent from the snapshot).  If
the buffer is non-empty and does not end with a newline, report at
(last line, last column + 1). -/
def newLineAtEndOfFileCheck (content : String) : Option RViol :=
  if content.data.isEmpty then none
  else if content.data.getLast? == some '\n' then none
  else
    let ls := rustLines content
    some ⟨ls.length, charCount (ls.getLast?.getD "") + 1,
      "no new line character at the end of file"⟩

/-- The rule modules called by `lint_file` whose sources are absent
from the snapshot (`new_lines`, `octal_values`, `quoted_strings`,
`truthy`, `key_ordering`, `line_length`); each is an arbitrary
buffer-to-violations function. -/
structure ExternalChecks where
  newLines : String → List RViol
  octalValues : String → List RViol
  quotedStrings : String → List RViol
  truthy : String → List RViol
  keyOrdering : String → List RViol
  lineLength : String → List RViol

/-- One guarded rule block of `lint_file`: run only when
`cfg.rule_level(id)` is `Some` and the rule is not ignored for the
path, and wrap each hit with the level and the rule id. -/
def ruleBlock (lvl : String → Option RuleLevel) (ign : String → Bool)
    (id : String) (hits : List RViol) : List LintProblem :=
  match lvl id with
  | none => []
  | some level =>
    if ign id then []
    else hits.map fun h => ⟨h.line, h.column, level.toSeverity, h.message, some id⟩

/-- `lint_file` (src/lint.rs), after the file read: the per-rule blocks
push diagnostics in the fixed source order (new-line-at-end-of-file,
new-lines, octal-values, quoted-strings, truthy, key-ordering,
line-length, trailing-spaces), then `syntax_diagnostic` — the external
parser, abstracted as `parse` — replaces everything on a fatal parse
error with the single `(syntax)` diagnostic built from the error
marker. -/
def lintFile (lvl : String → Option RuleLevel) (ign : String → Bool)
    (ext : ExternalChecks) (parse : String → Option SyntaxErr)
    (content : String) : List LintProblem :=
  let d : List LintProblem := []
  let d := d ++ ruleBlock lvl ign "new-line-at-end-of-file"
    ((newLineAtEndOfFileCheck content).toList)
  let d := d ++ ruleBlock lvl ign "new-lines" (ext.newLines content)
  let d := d ++ ruleBlock lvl ign "octal-values" (ext.octalValues content)
  let d := d ++ ruleBlock lvl ign "quoted-strings" (ext.quotedStrings content)
  let d := d ++ ruleBlock lvl ign "truthy" (ext.truthy content)
  let d := d ++ ruleBlock lvl ign "key-ordering" (ext.keyOrdering content)
  let d := d ++ ruleBlock lvl ign "line-length" (ext.lineLength content)
  let d := d ++ ruleBlock lvl ign "trailing-spaces" (trailingSpacesCheck content)
  match parse content with
  | some e =>
    [⟨e.line, e.col + 1, .error, "syntax error: " ++ e.info ++ " (syntax)", none⟩]
  | none => d

/-- Is a diagnostics list sorted by `(line, column)` ascending? -/
def sortedByLineCol : List LintProblem → Bool
  | [] => true
  | [_] => true
  | a :: b :: rest =>
    (a.line < b.line || (a.line == b.line && a.column ≤ b.column)) &&
      sortedByLineCol (b :: rest)

/-! ## Exit-code mapping (src/main.rs)

`process_results` walks the per-file outcomes in input order; a read
failure sets `has_error`, otherwise each problem surviving the
`--no-warnings` filter sets `has_error` / `has_warning` by its level
(files whose filtered problem list is empty are skipped).  `main` then
maps `(has_error, has_warning, strict)` to the process exit code. -/

/-- The loop of `process_results`, accumulating `(has_error,
has_warning)`. -/
def processResultsGo (noWarnings : Bool) :
    Bool → Bool → List (Except String (List LintProblem)) → Bool × Bool
  | he, hw, [] => (he, hw)
  | _, hw, .error _ :: rest => processResultsGo noWarnings true hw rest
  | he, hw, .ok ds :: rest =>
    let probs := ds.filter fun p => !(noWarnings && p.level == Severity.warning)
    if probs.isEmpty then processResultsGo noWarnings he hw rest
    else
      processResultsGo noWarnings
        (he || probs.any fun p => p.level == Severity.error)
        (hw || probs.any fun p => p.level == Severity.warning) rest

/-- `process_results(files, results, output_format, no_warnings)`
restricted to its returned booleans (the printing side effects carry no
further information; both output formats update the booleans
identically). -/
def processResults (results : List (Except String (List LintProblem)))
    (noWarnings : Bool) : Bool × Bool :=
  processResultsGo noWarnings false false results

/-- The exit-code mapping at the end of `main` (src/main.rs lines
191-197): errors exit 1, strict-mode warnings exit 2, otherwise 0. -/
def mainExitCode (strict noWarnings : Bool)
    (results : List (Except String (List LintProblem))) : Nat :=
  let r := processResults results noWarnings
  if r.1 then 1
  else if r.2 && strict then 2
  else 0

/-! ## The `comments` rule (src/rules/comments.rs)

Lines are `List Char`; Rust byte indices into a line are represented by
char indices (the source only slices at char boundaries and converts
byte indices to 1-based char columns via `column_at`, so columns agree).
-/

/-- Resolved options of the `comments` rule (`Config`);
`minSpacesFromContent = none` models a negative
`min-spaces-from-content` (check disabled). -/
structure CommentsCfg where
  requireStartingSpace : Bool
  ignoreShebangs : Bool
  minSpacesFromContent : Option Nat
deriving DecidableEq

/-- The `Config::resolve` defaults
(`require-starting-space: true`, `ignore-shebangs: true`,
`min-spaces-from-content: 2`). -/
def defaultCommentsCfg : CommentsCfg :=
  { requireStartingSpace := true, ignoreShebangs := true, minSpacesFromContent := some 2 }

/-- `QuoteState` (src/rules/comments.rs). -/
structure QuoteState where
  inSingle : Bool
  inDouble : Bool
  escaped : Bool
deriving DecidableEq

/-- `QuoteState::default()`. -/
def QuoteState.init : QuoteState := ⟨false, false, false⟩

/-- `leading_indent_width`: chars while space or tab. -/
def leadingIndentWidth (line : List Char) : Nat :=
  (line.takeWhile fun c => c == ' ' || c == '\t').length

/-- `str::trim_end` on a char list. -/
def trimEndCl (l : List Char) : List Char :=
  (l.reverse.dropWhile Char.isWhitespace).reverse

/-- Is the char list nothing but whitespace (`trim().is_empty()`)? -/
def isBlankCl (l : List Char) : Bool := l.all Char.isWhitespace

/-- The loop of `find_comment_start`: walk the line tracking quote and
escape state; a `#` outside quotes that sits at line start or after a
whitespace char starts the comment (the state stays as mutated so far);
reaching the end clears `escaped`. -/
def findCommentStartGo : List Char → Nat → Option Char → QuoteState →
    Option Nat × QuoteState
  | [], _, _, st => (none, { st with escaped := false })
  | c :: rest, idx, prev, st =>
    if c == '\\' && !st.inSingle then
      findCommentStartGo rest (idx + 1) (some c) { st with escaped := !st.escaped }
    else if st.escaped then
      findCommentStartGo rest (idx + 1) (some c) { st with escaped := false }
    else if c == '\'' && !st.inDouble then
      findCommentStartGo rest (idx + 1) (some c) { st with inSingle := !st.inSingle }
    else if c == '"' && !st.inSingle then
      findCommentStartGo rest (idx + 1) (some c) { st with inDouble := !st.inDouble }
    else if c == '#' && !st.inSingle && !st.inDouble then
      if (match prev with | none => true | some p => p.isWhitespace) then (some idx, st)
      else findCommentStartGo rest (idx + 1) (some c) st
    else findCommentStartGo rest (idx + 1) (some c) st

/-- `find_comment_start(line, state)` (the `is_comment_position`
look-back is the tracked previous char). -/
def findCommentStart (line : List Char) (st : QuoteState) : Option Nat × QuoteState :=
  findCommentStartGo line 0 none st

/-- `is_inline_comment`: non-whitespace content precedes the `#`. -/
def isInlineComment (line : List Char) (cs : Nat) : Bool :=
  !isBlankCl (line.take cs)

/-- `inline_spacing_width`: whitespace run immediately before the `#`. -/
def inlineSpacingWidth (line : List Char) (cs : Nat) : Nat :=
  ((line.take cs).reverse.takeWhile Char.isWhitespace).length

/-- `skip_hashes`: length of the run of `#`s. -/
def skipHashes (l : List Char) : Nat :=
  (l.takeWhile fun c => c == '#').length

/-! ### Block-scalar tracker (shared shape of src/rules/comments.rs and
src/rules/comments_indentation.rs) -/

/-- `BlockScalarState`. -/
structure BTState where
  indicatorIndent : Nat
  contentIndent : Option Nat
deriving DecidableEq

/-- `BlockScalarTracker::consume_line`, comments.rs version (the
tracker state is `none` when not inside a block scalar). -/
def btConsumeC : Option BTState → Nat → List Char → Bool × Option BTState
  | none, _, _ => (false, none)
  | some st, indent, content =>
    if isBlankCl content then (true, some st)
    else
      match st.contentIndent with
      | some ci =>
        if ci ≤ indent then (true, some st)
        else if indent ≤ st.indicatorIndent then (false, none)
        else (true, some ⟨st.indicatorIndent, some (min ci indent)⟩)
      | none =>
        if st.indicatorIndent < indent then (true, some ⟨st.indicatorIndent, some indent⟩)
        else (false, none)

/-- `BlockScalarTracker::consume_line`, comments_indentation.rs version
(same decisions, written with the `updated_indent` binding). -/
def btConsumeCI : Option BTState → Nat → List Char → Bool × Option BTState
  | none, _, _ => (false, none)
  | some st, indent, content =>
    if isBlankCl content then (true, some st)
    else
      match st.contentIndent with
      | some ci =>
        if ci ≤ indent then (true, some st)
        else if indent ≤ st.indicatorIndent then (false, none)
        else (true, some ⟨st.indicatorIndent, some (min ci indent)⟩)
      | none =>
        if indent ≤ st.indicatorIndent then (false, none)
        else (true, some ⟨st.indicatorIndent, some indent⟩)

/-- The loop of `strip_trailing_comment_for_block`: cut at the first
`#` outside quotes and trim trailing whitespace. -/
def stripTrailGo (insg indb esc : Bool) (acc : List Char) : List Char → List Char
  | [] => trimEndCl acc
  | c :: rest =>
    if c == '\\' && !insg then stripTrailGo insg indb (!esc) (acc ++ [c]) rest
    else if esc then stripTrailGo insg indb false (acc ++ [c]) rest
    else if c == '\'' && !indb then stripTrailGo (!insg) indb esc (acc ++ [c]) rest
    else if c == '"' && !insg then stripTrailGo insg (!indb) esc (acc ++ [c]) rest
    else if c == '#' && !insg && !indb then trimEndCl acc
    else stripTrailGo insg indb esc (acc ++ [c]) rest

/-- `strip_trailing_comment_for_block(content)`. -/
def stripTrailingCommentForBlock (content : List Char) : List Char :=
  stripTrailGo false false false [] content

/-- `is_block_scalar_indicator(content)`. -/
def isBlockScalarIndicator (content : List Char) : Bool :=
  if content.isEmpty then false
  else
    let trimmed := (content.reverse.dropWhile Char.isWhitespace).reverse
    List.isSuffixOf ['|', '-'] trimmed || List.isSuffixOf ['|', '+'] trimmed ||
    List.isSuffixOf ['|'] trimmed || List.isSuffixOf ['>', '-'] trimmed ||
    List.isSuffixOf ['>', '+'] trimmed || List.isSuffixOf ['>'] trimmed

/-- `BlockScalarTracker::observe_indicator` (identical text in both
rule modules). -/
def btObserve (s : Option BTState) (indent : Nat) (content : List Char) : Option BTState :=
  let candidate := trimEndCl (stripTrailingCommentForBlock content)
  if isBlockScalarIndicator candidate then some ⟨indent, none⟩ else s

/-- One iteration of the `comments::check` line loop: consume
block-scalar body lines, find a comment start, emit the
too-few-spaces and missing-starting-space violations, and update the
tracker state exactly along the source's `continue` paths. -/
def commentsLine (cfg : CommentsCfg) (lineIdx : Nat) (line : List Char)
    (qs : QuoteState) (bt : Option BTState) :
    List RViol × QuoteState × Option BTState :=
  let indent := leadingIndentWidth line
  let content := line.drop indent
  let c := btConsumeC bt indent content
  if c.1 then ([], qs, c.2)
  else
    let bt := c.2
    let f := findCommentStart line qs
    match f.1 with
    | none => ([], f.2, btObserve bt indent content)
    | some cs =>
      let qs := f.2
      let v1 : List RViol :=
        match cfg.minSpacesFromContent with
        | some required =>
          if isInlineComment line cs && inlineSpacingWidth line cs < required then
            [⟨lineIdx + 1, cs + 1,
              "too few spaces before comment: expected " ++ toString required⟩]
          else []
        | none => []
      if !cfg.requireStartingSpace then (v1, qs, bt)
      else
        let afterHash := cs + skipHashes (line.drop cs)
        if line.length ≤ afterHash then (v1, qs, bt)
        else
          let nextChar := line.getD afterHash ' '
          if cfg.ignoreShebangs && lineIdx == 0 && cs == 0 && nextChar == '!' then
            (v1, qs, bt)
          else
            let v2 : List RViol :=
              if nextChar != ' ' then
                [⟨lineIdx + 1, afterHash + 1, "missing starting space in comment"⟩]
              else []
            (v1 ++ v2, qs, btObserve bt indent content)

/-- The line loop of `comments::check`, threading the quote state and
the block-scalar tracker across lines. -/
def checkCommentsGo (cfg : CommentsCfg) :
    Nat → QuoteState → Option BTState → List (List Char) → List RViol
  | _, _, _, [] => []
  | i, qs, bt, l :: rest =>
    let r := commentsLine cfg i l qs bt
    r.1 ++ checkCommentsGo cfg (i + 1) r.2.1 r.2.2 rest

/-- `comments::check(buffer, cfg)`. -/
def checkComments (buffer : String) (cfg : CommentsCfg) : List RViol :=
  checkCommentsGo cfg 0 QuoteState.init none ((rustLines buffer).map String.data)

/-! ## The `brackets` rule (src/rules/brackets.rs)

The buffer is its char list; the scalar spans collected from the
external parser (and converted to char-index ranges by
`span_utils::ranges_to_char_indices`, a module not in the snapshot)
enter the model as a ready list of half-open char-index ranges. -/

/-- `Forbid`. -/
inductive Forbid where
  | none
  | all
  | nonEmpty
deriving DecidableEq

/-- Resolved options of the `brackets` rule (`Config`). -/
structure BracketsCfg where
  forbid : Forbid
  minSpacesInside : Int
  maxSpacesInside : Int
  minSpacesInsideEmpty : Int
  maxSpacesInsideEmpty : Int
deriving DecidableEq

/-- `Config::resolve` defaults (`forbid: false`, spacing 0/0, empty
variants -1 = inherit). -/
def defaultBracketsCfg : BracketsCfg := ⟨.none, 0, 0, -1, -1⟩

/-- `Config::effective_min_empty`. -/
def BracketsCfg.effectiveMinEmpty (c : BracketsCfg) : Int :=
  if 0 ≤ c.minSpacesInsideEmpty then c.minSpacesInsideEmpty else c.minSpacesInside

/-- `Config::effective_max_empty`. -/
def BracketsCfg.effectiveMaxEmpty (c : BracketsCfg) : Int :=
  if 0 ≤ c.maxSpacesInsideEmpty then c.maxSpacesInsideEmpty else c.maxSpacesInside

/-- `SequenceState`. -/
structure SequenceState where
  isEmpty : Bool
deriving DecidableEq

/-- `AfterResult`. -/
inductive AfterResult where
  | sameLine (spaces nextIdx : Nat)
  | ignored
deriving DecidableEq

/-- `BeforeResult`. -/
inductive BeforeResult where
  | sameLine (spaces : Nat)
  | empty
  | ignored
deriving DecidableEq

/-- The byte loop of `build_line_starts` (char positions; `\n`, `\r\n`
and lone `\r` all terminate a line). -/
def buildLineStartsGo : List Char → Nat → List Nat
  | [], _ => []
  | '\n' :: rest, idx => (idx + 1) :: buildLineStartsGo rest (idx + 1)
  | '\r' :: '\n' :: rest2, idx => (idx + 2) :: buildLineStartsGo rest2 (idx + 2)
  | '\r' :: rest, idx => (idx + 1) :: buildLineStartsGo rest (idx + 1)
  | _ :: rest, idx => buildLineStartsGo rest (idx + 1)

/-- `build_line_starts(buffer)`. -/
def buildLineStarts (chars : List Char) : List Nat :=
  0 :: buildLineStartsGo chars 0

/-- Scan for the greatest index whose line start is `≤ b`. -/
def lacGo : List Nat → Nat → Nat → Nat → Nat → Nat × Nat
  | [], _, bi, bs, b => (bi + 1, b - bs + 1)
  | s :: rest, i, bi, bs, b =>
    if s ≤ b then lacGo rest (i + 1) i s b else lacGo rest (i + 1) bi bs b

/-- `line_and_column(line_starts, byte_idx)`: the source's binary
search returns the greatest index whose start is `≤ byte_idx` (the
table is strictly increasing and begins with 0); this linear scan
realizes the same postcondition. -/
def lineAndColumn (starts : List Nat) (b : Nat) : Nat × Nat :=
  match starts with
  | [] => (1, b + 1)
  | s0 :: rest => lacGo rest 1 0 s0 b

/-- The scan loop of `skip_comment`: advance past the comment until a
line terminator (stopping on `\r` of `\r\n` at the `\n`). -/
def skipCommentGo (chars : List Char) (j : Nat) : Nat :=
  if _h : j < chars.length then
    if chars.getD j ' ' == '\n' then j
    else if chars.getD j ' ' == '\r' then
      if j + 1 < chars.length && chars.getD (j + 1) ' ' == '\n' then j + 1 else j
    else skipCommentGo chars (j + 1)
  else j
termination_by chars.length - j

/-- `skip_comment(chars, idx)`. -/
def skipComment (chars : List Char) (idx : Nat) : Nat :=
  skipCommentGo chars (idx + 1)

theorem skipCommentGo_ge (chars : List Char) (j : Nat) : j ≤ skipCommentGo chars j := by
  unfold skipCommentGo
  split
  · split
    · omega
    · split
      · split <;> omega
      · have := skipCommentGo_ge chars (j + 1)
        omega
  · omega
termination_by chars.length - j

theorem skipComment_gt (chars : List Char) (idx : Nat) : idx < skipComment chars idx := by
  have := skipCommentGo_ge chars (idx + 1)
  unfold skipComment
  omega

/-- The loop of `compute_spaces_after_open`. -/
def csaoGo (chars : List Char) (j spaces : Nat) : AfterResult :=
  if _h : j < chars.length then
    if chars.getD j ' ' == ' ' || chars.getD j ' ' == '\t' then
      csaoGo chars (j + 1) (spaces + 1)
    else if chars.getD j ' ' == '\n' || chars.getD j ' ' == '\r' ||
        chars.getD j ' ' == '#' then .ignored
    else .sameLine spaces j
  else .ignored
termination_by chars.length - j

/-- `compute_spaces_after_open(chars, open_idx)`. -/
def computeSpacesAfterOpen (chars : List Char) (openIdx : Nat) : AfterResult :=
  csaoGo chars (openIdx + 1) 0

/-- The downward loop of `compute_spaces_before_close` (processes
indices `j-1, j-2, …, 0`; falling off the front is `Ignored`). -/
def csbcGo (chars : List Char) : Nat → Nat → BeforeResult
  | 0, _ => .ignored
  | j + 1, spaces =>
    let c := chars.getD j ' '
    if c == ' ' || c == '\t' then csbcGo chars j (spaces + 1)
    else if c == '\n' || c == '\r' || c == '#' then .ignored
    else if c == '[' then .empty
    else .sameLine spaces

/-- `compute_spaces_before_close(chars, close_idx)`. -/
def computeSpacesBeforeClose (chars : List Char) (closeIdx : Nat) : BeforeResult :=
  if closeIdx == 0 then .ignored else csbcGo chars closeIdx 0

/-- The loop of `next_significant_index`. -/
def nsiGo (chars : List Char) (j : Nat) : Option Nat :=
  if _h : j < chars.length then
    if chars.getD j ' ' == ' ' || chars.getD j ' ' == '\t' ||
        chars.getD j ' ' == '\n' then nsiGo chars (j + 1)
    else if chars.getD j ' ' == '\r' then
      if j + 1 < chars.length && chars.getD (j + 1) ' ' == '\n' then nsiGo chars (j + 2)
      else nsiGo chars (j + 1)
    else if chars.getD j ' ' == '#' then
      if chars.length ≤ skipComment chars j then none
      else nsiGo chars (skipComment chars j + 1)
    else some j
  else none
termination_by chars.length - j
decreasing_by
  all_goals simp_wf
  all_goals first
    | omega
    | (have h := skipComment_gt chars j; omega)

/-- `next_significant_index(chars, open_idx)`. -/
def nextSignificantIndex (chars : List Char) (openIdx : Nat) : Option Nat :=
  nsiGo chars (openIdx + 1)

/-- `record_after_spacing`. -/
def recordAfterSpacing (minS maxS : Int) (spaces line nextColumn : Nat)
    (minMsg maxMsg : String) (viols : List RViol) : List RViol :=
  let si : Int := spaces
  let viols :=
    if 0 ≤ maxS && maxS < si then
      viols ++ [⟨line, Nat.max (nextColumn - 1) 1, maxMsg⟩]
    else viols
  if 0 ≤ minS && si < minS then viols ++ [⟨line, nextColumn, minMsg⟩]
  else viols

/-- `stack.last_mut()` + `state.is_empty = false` (stack top is the
head of the list; `Vec::push`/`pop` act on the same end). -/
def markNonEmptyTop : List SequenceState → List SequenceState
  | [] => []
  | _ :: rest => ⟨false⟩ :: rest

/-- `handle_open(cfg, chars, idx, line_starts, stack, violations)`. -/
def handleOpen (cfg : BracketsCfg) (chars : List Char) (idx : Nat)
    (starts : List Nat) (stack : List SequenceState) (viols : List RViol) :
    List SequenceState × List RViol :=
  let lc := lineAndColumn starts idx
  let nextSig := nextSignificantIndex chars idx
  let isEmptyNow :=
    match nextSig with
    | some j => chars.getD j ' ' == ']'
    | none => false
  let forb : Bool × List RViol :=
    match cfg.forbid with
    | .all =>
      (true, viols ++ [⟨lc.1, lc.2 + 1, "forbidden flow sequence"⟩])
    | .nonEmpty =>
      if !isEmptyNow then
        (true, viols ++ [⟨lc.1, lc.2 + 1, "forbidden flow sequence"⟩])
      else (false, viols)
    | .none => (false, viols)
  let skipOpenCheck := forb.1
  let viols := forb.2
  let state : SequenceState := ⟨isEmptyNow⟩
  let sv : SequenceState × List RViol :=
    if skipOpenCheck then (state, viols)
    else
      match computeSpacesAfterOpen chars idx with
      | .sameLine spaces nextIdx =>
        let nlc := lineAndColumn starts nextIdx
        if state.isEmpty && chars.getD nextIdx ' ' == ']' then
          (state,
            recordAfterSpacing cfg.effectiveMinEmpty cfg.effectiveMaxEmpty spaces
              nlc.1 nlc.2 "too few spaces inside empty brackets"
              "too many spaces inside empty brackets" viols)
        else
          (⟨false⟩,
            recordAfterSpacing cfg.minSpacesInside cfg.maxSpacesInside spaces
              nlc.1 nlc.2 "too few spaces inside brackets"
              "too many spaces inside brackets" viols)
      | .ignored => (state, viols)
  (sv.1 :: stack, sv.2)

/-- `handle_close(cfg, chars, idx, line_starts, stack, violations)`:
popping an empty stack returns immediately (no violation, stack left
empty). -/
def handleClose (cfg : BracketsCfg) (chars : List Char) (idx : Nat)
    (starts : List Nat) (stack : List SequenceState) (viols : List RViol) :
    List SequenceState × List RViol :=
  match stack with
  | [] => ([], viols)
  | state :: rest =>
    if state.isEmpty then (rest, viols)
    else
      match computeSpacesBeforeClose chars idx with
      | .sameLine spaces =>
        let lc := lineAndColumn starts idx
        let si : Int := spaces
        let viols :=
          if 0 ≤ cfg.maxSpacesInside && cfg.maxSpacesInside < si then
            viols ++ [⟨lc.1, Nat.max (lc.2 - 1) 1, "too many spaces inside brackets"⟩]
          else viols
        let viols :=
          if 0 ≤ cfg.minSpacesInside && si < cfg.minSpacesInside then
            viols ++ [⟨lc.1, lc.2, "too few spaces inside brackets"⟩]
          else viols
        (rest, viols)
      | .empty => (rest, viols)
      | .ignored => (rest, viols)

/-- The inner `while range_idx < … && ranges[range_idx].end <= idx`
advance of the main loop. -/
def advanceRange (ranges : List (Nat × Nat)) (ri idx : Nat) : Nat :=
  if _h : ri < ranges.length then
    if (ranges.getD ri (0, 0)).2 ≤ idx then advanceRange ranges (ri + 1) idx else ri
  else ri
termination_by ranges.length - ri

/-- Is `idx` inside the active scalar range?  Returns the range end and
whether `idx` is exactly the range start. -/
def checkRangeHit (ranges : List (Nat × Nat)) (ri idx : Nat) : Option (Nat × Bool) :=
  match ranges.get? ri with
  | some r => if r.1 ≤ idx && idx < r.2 then some (r.2, idx == r.1) else none
  | none => none

theorem checkRangeHit_lt {ranges : List (Nat × Nat)} {ri idx e : Nat} {b : Bool}
    (h : checkRangeHit ranges ri idx = some (e, b)) : idx < e := by
  unfold checkRangeHit at h
  split at h
  · split at h
    · rename_i hc
      simp only [Option.some.injEq, Prod.mk.injEq] at h
      simp only [Bool.and_eq_true, decide_eq_true_eq] at hc
      omega
    · exact absurd h (by simp)
  · exact absurd h (by simp)

/-- The `while idx < chars.len()` loop of `brackets::check`. -/
def checkLoop (cfg : BracketsCfg) (chars : List Char) (ranges : List (Nat × Nat))
    (starts : List Nat) (ri idx : Nat) (stack : List SequenceState)
    (viols : List RViol) : List RViol :=
  if _h : idx < chars.length then
    match _hq : checkRangeHit ranges (advanceRange ranges ri idx) idx with
    | some hit =>
      checkLoop cfg chars ranges starts (advanceRange ranges ri idx) hit.1
        (if hit.2 then markNonEmptyTop stack else stack) viols
    | none =>
      if chars.getD idx ' ' == '[' then
        let r := handleOpen cfg chars idx starts (markNonEmptyTop stack) viols
        checkLoop cfg chars ranges starts (advanceRange ranges ri idx) (idx + 1) r.1 r.2
      else if chars.getD idx ' ' == ']' then
        let r := handleClose cfg chars idx starts stack viols
        checkLoop cfg chars ranges starts (advanceRange ranges ri idx) (idx + 1) r.1 r.2
      else if chars.getD idx ' ' == '#' then
        checkLoop cfg chars ranges starts (advanceRange ranges ri idx)
          (skipComment chars idx) stack viols
      else if chars.getD idx ' ' == ',' || chars.getD idx ' ' == ' ' ||
          chars.getD idx ' ' == '\t' || chars.getD idx ' ' == '\n' then
        checkLoop cfg chars ranges starts (advanceRange ranges ri idx) (idx + 1) stack viols
      else if chars.getD idx ' ' == '\r' then
        checkLoop cfg chars ranges starts (advanceRange ranges ri idx)
          ((if idx + 1 < chars.length && chars.getD (idx + 1) ' ' == '\n' then idx + 1
            else idx) + 1) stack viols
      else
        checkLoop cfg chars ranges starts (advanceRange ranges ri idx) (idx + 1)
          (markNonEmptyTop stack) viols
  else viols
termination_by chars.length - idx
decreasing_by
  all_goals simp_wf
  all_goals first
    | omega
    | (have h := checkRangeHit_lt _hq; omega)
    | (have h := skipComment_gt chars idx; omega)
    | (split <;> omega)

/-- `brackets::check(buffer, cfg)` with the externally collected scalar
ranges as a parameter. -/
def checkBrackets (chars : List Char) (cfg : BracketsCfg)
    (scalarRanges : List (Nat × Nat)) : List RViol :=
  if chars.isEmpty then []
  else checkLoop cfg chars scalarRanges (buildLineStarts chars) 0 0 [] []

/-! ## Helper lemmas for the brackets loop -/

theorem advanceRange_nil (ri idx : Nat) : advanceRange [] ri idx = ri := by
  unfold advanceRange
  simp

theorem checkRangeHit_nil (ri idx : Nat) : checkRangeHit [] ri idx = none := by
  simp [checkRangeHit]

theorem handleClose_empty_stack (cfg : BracketsCfg) (chars : List Char) (idx : Nat)
    (starts : List Nat) (viols : List RViol) :
    handleClose cfg chars idx starts [] viols = ([], viols) := rfl

theorem checkLoop_all_close (k : Nat) :
    ∀ (cfg : BracketsCfg) (chars : List Char) (starts : List Nat) (ri idx : Nat)
      (viols : List RViol), chars.length ≤ idx + k → (∀ c ∈ chars, c = ']') →
      checkLoop cfg chars [] starts ri idx [] viols = viols := by
  induction k with
  | zero =>
    intro cfg chars starts ri idx viols hlen _hall
    unfold checkLoop
    rw [dif_neg (by omega)]
  | succ k ih =>
    intro cfg chars starts ri idx viols hlen hall
    unfold checkLoop
    by_cases h : idx < chars.length
    · have hch : chars.getD idx ' ' = ']' := by
        rw [List.getD_eq_getElem?_getD, List.getElem?_eq_getElem h]
        exact hall _ (List.getElem_mem h)
      rw [dif_pos h]
      simp only [checkRangeHit_nil, hch, handleClose_empty_stack]
      norm_num
      exact ih cfg chars starts (advanceRange [] ri idx) (idx + 1) viols (by omega) hall
    · rw [dif_neg h]

/-- C10: `brackets::check` is total, and a `]` met while the
sequence-state stack is empty is silently ignored: `handle_close` on an
empty stack emits no violation and leaves the stack empty, so a buffer
of excess closing brackets produces no spacing diagnostic at all
(totality holds by construction: every loop in the embedding carries a
proved decreasing measure mirroring the source loop's progress). -/
theorem C10_close_on_empty_stack_ignored :
    (∀ (cfg : BracketsCfg) (chars : List Char) (idx : Nat) (starts : List Nat)
        (viols : List RViol),
        handleClose cfg chars idx starts [] viols = ([], viols)) ∧
    (∀ (cfg : BracketsCfg) (n : Nat),
        checkBrackets (List.replicate n ']') cfg [] = []) := by
  constructor
  · intro cfg chars idx starts viols
    exact handleClose_empty_stack cfg chars idx starts viols
  · intro cfg n
    cases n with
    | zero => rfl
    | succ m =>
      unfold checkBrackets
      rw [if_neg (by simp)]
      exact checkLoop_all_close (m + 1) cfg _ _ 0 0 [] (by simp) fun c hc =>
        List.eq_of_mem_replicate hc

/-- C9: the block-scalar tracker invariant.  Under the invariant that a
recorded content indent lies strictly below the indicator indent (which
`consume_line` itself maintains), a whitespace-only line is always
consumed with the state unchanged; the invariant is preserved; a
recorded content indent never grows across a call; the first non-empty
body line strictly deeper than the indicator sets the content indent;
a non-empty line at or above the indicator's indent ends the block
without being consumed; and the comments.rs and
comments_indentation.rs implementations agree everywhere. -/
theorem C9_block_scalar_tracker_invariant :
    ∀ (st : BTState) (indent : Nat) (content : List Char),
      (∀ ci, st.contentIndent = some ci → st.indicatorIndent < ci) →
      ((isBlankCl content = true → btConsumeC (some st) indent content = (true, some st)) ∧
        (∀ st2 ci2, (btConsumeC (some st) indent content).2 = some st2 →
          st2.contentIndent = some ci2 → st2.indicatorIndent < ci2) ∧
        (∀ ci st2 ci2, st.contentIndent = some ci →
          (btConsumeC (some st) indent content).2 = some st2 →
          st2.contentIndent = some ci2 → ci2 ≤ ci) ∧
        (st.contentIndent = none → isBlankCl content = false →
          st.indicatorIndent < indent →
          btConsumeC (some st) indent content = (true, some ⟨st.indicatorIndent, some indent⟩)) ∧
        (isBlankCl content = false → indent ≤ st.indicatorIndent →
          btConsumeC (some st) indent content = (false, none)) ∧
        (∀ (s : Option BTState) (i : Nat) (c : List Char),
          btConsumeC s i c = btConsumeCI s i c)) := by
  intro st indent content hwf
  obtain ⟨ii, ci⟩ := st
  have hCsome : ∀ (ind : Nat) (cnt : List Char) (c0 : Nat),
      btConsumeC (some ⟨ii, some c0⟩) ind cnt =
        if isBlankCl cnt then (true, some ⟨ii, some c0⟩)
        else if c0 ≤ ind then (true, some ⟨ii, some c0⟩)
        else if ind ≤ ii then (false, none)
        else (true, some ⟨ii, some (min c0 ind)⟩) := fun _ _ _ => rfl
  have hCnone : ∀ (ind : Nat) (cnt : List Char),
      btConsumeC (some ⟨ii, none⟩) ind cnt =
        if isBlankCl cnt then (true, some ⟨ii, none⟩)
        else if ii < ind then (true, some ⟨ii, some ind⟩)
        else (false, none) := fun _ _ => rfl
  refine ⟨?_, ?_, ?_, ?_, ?_, ?_⟩
  · intro hb
    cases ci with
    | none => rw [hCnone, if_pos hb]
    | some c0 => rw [hCsome, if_pos hb]
  · intro st2 ci2 h1 h2
    by_cases hb : isBlankCl content
    · cases ci with
      | none =>
        rw [hCnone, if_pos hb] at h1
        have h1' : some (BTState.mk ii none) = some st2 := h1
        injection h1' with h1'
        subst h1'
        exact absurd h2 (by simp)
      | some c0 =>
        rw [hCsome, if_pos hb] at h1
        have h1' : some (BTState.mk ii (some c0)) = some st2 := h1
        injection h1' with h1'
        subst h1'
        have h2' : some c0 = some ci2 := h2
        injection h2' with h2'
        subst h2'
        exact hwf c0 rfl
    · cases ci with
      | some c0 =>
        have hc0 : ii < c0 := hwf c0 rfl
        rw [hCsome, if_neg (by simp [hb])] at h1
        by_cases h3 : c0 ≤ indent
        · rw [if_pos h3] at h1
          have h1' : some (BTState.mk ii (some c0)) = some st2 := h1
          injection h1' with h1'
          subst h1'
          have h2' : some c0 = some ci2 := h2
          injection h2' with h2'
          subst h2'
          exact hc0
        · rw [if_neg h3] at h1
          by_cases h4 : indent ≤ ii
          · rw [if_pos h4] at h1
            exact absurd h1 (by simp)
          · rw [if_neg h4] at h1
            have h1' : some (BTState.mk ii (some (min c0 indent))) = some st2 := h1
            injection h1' with h1'
            subst h1'
            have h2' : some (min c0 indent) = some ci2 := h2
            injection h2' with h2'
            subst h2'
            show ii < min c0 indent
            exact Nat.lt_min.mpr ⟨hc0, by omega⟩
      | none =>
        rw [hCnone, if_neg (by simp [hb])] at h1
        by_cases h3 : ii < indent
        · rw [if_pos h3] at h1
          have h1' : some (BTState.mk ii (some indent)) = some st2 := h1
          injection h1' with h1'
          subst h1'
          have h2' : some indent = some ci2 := h2
          injection h2' with h2'
          subst h2'
          exact h3
        · rw [if_neg h3] at h1
          exact absurd h1 (by simp)
  · intro c0 st2 ci2 hci h1 h2
    have hci' : ci = some c0 := hci
    subst hci'
    have hc0 : ii < c0 := hwf c0 rfl
    by_cases hb : isBlankCl content
    · rw [hCsome, if_pos hb] at h1
      have h1' : some (BTState.mk ii (some c0)) = some st2 := h1
      injection h1' with h1'
      subst h1'
      have h2' : some c0 = some ci2 := h2
      injection h2' with h2'
      subst h2'
      exact Nat.le_refl _
    · rw [hCsome, if_neg (by simp [hb])] at h1
      by_cases h3 : c0 ≤ indent
      · rw [if_pos h3] at h1
        have h1' : some (BTState.mk ii (some c0)) = some st2 := h1
        injection h1' with h1'
        subst h1'
        have h2' : some c0 = some ci2 := h2
        injection h2' with h2'
        subst h2'
        exact Nat.le_refl _
      · rw [if_neg h3] at h1
        by_cases h4 : indent ≤ ii
        · rw [if_pos h4] at h1
          exact absurd h1 (by simp)
        · rw [if_neg h4] at h1
          have h1' : some (BTState.mk ii (some (min c0 indent))) = some st2 := h1
          injection h1' with h1'
          subst h1'
          have h2' : some (min c0 indent) = some ci2 := h2
          injection h2' with h2'
          subst h2'
          exact Nat.min_le_left _ _
  · intro hci hb hlt
    have hci' : ci = none := hci
    subst hci'
    rw [hCnone, if_neg (by simp [hb]), if_pos hlt]
  · intro hb hle
    have hle' : indent ≤ ii := hle
    cases ci with
    | none => rw [hCnone, if_neg (by simp [hb]), if_neg (by omega)]
    | some c0 =>
      have hc0 : ii < c0 := hwf c0 rfl
      rw [hCsome, if_neg (by simp [hb]), if_neg (by omega), if_pos hle']
  · intro s i c
    cases s with
    | none => rfl
    | some st' =>
      obtain ⟨ii', ci'⟩ := st'
      cases ci' with
      | some c0 => rfl
      | none =>
        have e1 : btConsumeC (some ⟨ii', none⟩) i c =
            if isBlankCl c then (true, some ⟨ii', none⟩)
            else if ii' < i then (true, some ⟨ii', some i⟩)
            else (false, none) := rfl
        have e2 : btConsumeCI (some ⟨ii', none⟩) i c =
            if isBlankCl c then (true, some ⟨ii', none⟩)
            else if i ≤ ii' then (false, none)
            else (true, some ⟨ii', some i⟩) := rfl
        rw [e1, e2]
        by_cases hb : isBlankCl c
        · rw [if_pos hb, if_pos hb]
        · have hb' : ¬(isBlankCl c = true) := by simp [hb]
          rw [if_neg hb', if_neg hb']
          by_cases hlt : ii' < i
          · rw [if_pos hlt, if_neg (by omega)]
          · rw [if_neg hlt, if_pos (by omega)]


/-! ## Helper lemmas for the comments rule -/

theorem tooFewMsg_ne_missingMsg (n : Nat) :
    ("too few spaces before comment: expected " ++ toString n) ≠
      "missing starting space in comment" := by
  intro h
  have hlen := congrArg String.length h
  rw [String.length_append] at hlen
  have h1 : ("too few spaces before comment: expected ").length = 40 := rfl
  have h2 : ("missing starting space in comment").length = 33 := rfl
  omega

theorem missingMsg_ne_tooFewMsg (n : Nat) :
    "missing starting space in comment" ≠
      ("too few spaces before comment: expected " ++ toString n) :=
  fun h => tooFewMsg_ne_missingMsg n h.symm

/-- C8 counterexample: on the line `#\tx` the character after the run
of `#`s is a tab — whitespace — yet `comments::check` (with the
default options) emits "missing starting space in comment" at the
first post-`#` character, because the source accepts only a literal
space (`next_char != ' '`), not arbitrary whitespace as claimed. -/
theorem C8_tab_after_hash_counterexample :
    checkComments "#\tx" defaultCommentsCfg =
      [⟨1, 2, "missing starting space in comment"⟩] ∧
    ('\t').isWhitespace = true := ⟨rfl, rfl⟩

/-- C8 (amended): for a line on which the block-scalar tracker does not
consume and a comment is found at `cs`, the comments rule emits
"missing starting space in comment" at the first character after the
run of `#`s if and only if starting-space checking is enabled, that
character exists, it is not a space character (U+0020 exactly — any
other whitespace such as a tab still triggers the diagnostic), and the
shebang exception (`ignore-shebangs`, first line, comment at column
one, next char `!`) does not apply. -/
theorem C8_missing_space_iff :
    ∀ (cfg : CommentsCfg) (lineIdx : Nat) (line : List Char) (qs : QuoteState)
      (bt : Option BTState) (cs : Nat),
      (btConsumeC bt (leadingIndentWidth line)
          (line.drop (leadingIndentWidth line))).1 = false →
      (findCommentStart line qs).1 = some cs →
      (((⟨lineIdx + 1, cs + skipHashes (line.drop cs) + 1,
          "missing starting space in comment"⟩ : RViol) ∈
            (commentsLine cfg lineIdx line qs bt).1) ↔
        (cfg.requireStartingSpace = true ∧
          cs + skipHashes (line.drop cs) < line.length ∧
          line.getD (cs + skipHashes (line.drop cs)) ' ' ≠ ' ' ∧
          ¬(cfg.ignoreShebangs = true ∧ lineIdx = 0 ∧ cs = 0 ∧
            line.getD (cs + skipHashes (line.drop cs)) ' ' = '!'))) := by
  intro cfg lineIdx line qs bt cs h1 h2
  have key : (⟨lineIdx + 1, cs + skipHashes (line.drop cs) + 1,
      "missing starting space in comment"⟩ : RViol) ∉
        (match cfg.minSpacesFromContent with
          | some required =>
            if (isInlineComment line cs &&
                decide (inlineSpacingWidth line cs < required)) = true then
              ([⟨lineIdx + 1, cs + 1,
                "too few spaces before comment: expected " ++ toString required⟩] :
                  List RViol)
            else []
          | none => ([] : List RViol)) := by
    cases hmin : cfg.minSpacesFromContent with
    | none => simp only [hmin]; simp
    | some required =>
      simp only [hmin]
      split
      · simp only [List.mem_singleton, RViol.mk.injEq, not_and]
        intro _ _
        exact missingMsg_ne_tooFewMsg required
      · simp
  simp only [commentsLine, h1, h2, Bool.false_eq_true, if_false]
  by_cases hreq : cfg.requireStartingSpace = true
  · rw [show (!cfg.requireStartingSpace) = false by simp [hreq]]
    simp only [Bool.false_eq_true, if_false]
    by_cases hlen : line.length ≤ cs + skipHashes (line.drop cs)
    · rw [if_pos hlen]
      refine iff_of_false key ?_
      rintro ⟨_, hlt, _⟩
      omega
    · rw [if_neg hlen]
      by_cases hsheb : (cfg.ignoreShebangs && lineIdx == 0 && cs == 0 &&
          line.getD (cs + skipHashes (line.drop cs)) ' ' == '!') = true
      · rw [if_pos hsheb]
        refine iff_of_false key ?_
        rintro ⟨_, _, _, hnot⟩
        simp only [Bool.and_eq_true, beq_iff_eq] at hsheb
        exact hnot ⟨hsheb.1.1.1, hsheb.1.1.2, hsheb.1.2, hsheb.2⟩
      · rw [if_neg hsheb]
        by_cases hsp : line.getD (cs + skipHashes (line.drop cs)) ' ' = ' '
        · rw [show (line.getD (cs + skipHashes (line.drop cs)) ' ' != ' ') = false by
            rw [hsp]; decide]
          simp only [Bool.false_eq_true, if_false, List.append_nil]
          refine iff_of_false key ?_
          rintro ⟨_, _, hne, _⟩
          exact hne hsp
        · rw [show (line.getD (cs + skipHashes (line.drop cs)) ' ' != ' ') = true from
            bne_iff_ne.mpr hsp]
          simp only [if_true]
          refine iff_of_true (List.mem_append_right _ (by simp)) ?_
          refine ⟨hreq, by omega, hsp, ?_⟩
          rintro ⟨ha, hb, hc, hd⟩
          refine hsheb ?_
          rw [hd, ha, hb, hc]
          decide
  · rw [show (!cfg.requireStartingSpace) = true by simp [hreq]]
    simp only [if_true]
    refine iff_of_false key ?_
    rintro ⟨ha, _⟩
    exact hreq ha

/-- Witness for C8 (amended) at the line `#x` of a second line of a
buffer (no shebang exception applies), fresh quote state, no block
scalar open. -/
theorem C8_missing_space_iff_witness :
    ((btConsumeC none (leadingIndentWidth ['#', 'x'])
        ((['#', 'x'] : List Char).drop (leadingIndentWidth ['#', 'x']))).1 = false) ∧
    ((findCommentStart ['#', 'x'] QuoteState.init).1 = some 0) ∧
    (((⟨1 + 1, 0 + skipHashes ((['#', 'x'] : List Char).drop 0) + 1,
        "missing starting space in comment"⟩ : RViol) ∈
          (commentsLine defaultCommentsCfg 1 ['#', 'x'] QuoteState.init none).1) ↔
      (defaultCommentsCfg.requireStartingSpace = true ∧
        0 + skipHashes ((['#', 'x'] : List Char).drop 0) < (['#', 'x'] : List Char).length ∧
        (['#', 'x'] : List Char).getD (0 + skipHashes ((['#', 'x'] : List Char).drop 0)) ' ' ≠ ' ' ∧
        ¬(defaultCommentsCfg.ignoreShebangs = true ∧ (1 : Nat) = 0 ∧ (0 : Nat) = 0 ∧
          (['#', 'x'] : List Char).getD (0 + skipHashes ((['#', 'x'] : List Char).drop 0)) ' ' = '!'))) :=
  ⟨rfl, rfl, C8_missing_space_iff defaultCommentsCfg 1 ['#', 'x'] QuoteState.init none 0 rfl rfl⟩

/-- Witness for C9 at the in-block state with indicator indent 0 and
content indent 2, fed the non-blank line `x` at indent 1. -/
theorem C9_block_scalar_tracker_invariant_witness :
    (∀ ci, (BTState.mk 0 (some 2)).contentIndent = some ci →
        (BTState.mk 0 (some 2)).indicatorIndent < ci) ∧
    ((isBlankCl ['x'] = true →
        btConsumeC (some ⟨0, some 2⟩) 1 ['x'] = (true, some ⟨0, some 2⟩)) ∧
      (∀ st2 ci2, (btConsumeC (some ⟨0, some 2⟩) 1 ['x']).2 = some st2 →
        st2.contentIndent = some ci2 → st2.indicatorIndent < ci2) ∧
      (∀ ci st2 ci2, (BTState.mk 0 (some 2)).contentIndent = some ci →
        (btConsumeC (some ⟨0, some 2⟩) 1 ['x']).2 = some st2 →
        st2.contentIndent = some ci2 → ci2 ≤ ci) ∧
      ((BTState.mk 0 (some 2)).contentIndent = none → isBlankCl ['x'] = false →
        (BTState.mk 0 (some 2)).indicatorIndent < 1 →
        btConsumeC (some ⟨0, some 2⟩) 1 ['x'] =
          (true, some ⟨(BTState.mk 0 (some 2)).indicatorIndent, some 1⟩)) ∧
      (isBlankCl ['x'] = false → 1 ≤ (BTState.mk 0 (some 2)).indicatorIndent →
        btConsumeC (some ⟨0, some 2⟩) 1 ['x'] = (false, none)) ∧
      (∀ (s : Option BTState) (i : Nat) (c : List Char),
        btConsumeC s i c = btConsumeCI s i c)) := by
  have hw : ∀ ci, (BTState.mk 0 (some 2)).contentIndent = some ci →
      (BTState.mk 0 (some 2)).indicatorIndent < ci := by
    intro ci h
    have h2 : some 2 = some ci := h
    injection h2 with h2
    show (0 : Nat) < ci
    omega
  exact ⟨hw, C9_block_scalar_tracker_invariant ⟨0, some 2⟩ 1 ['x'] hw⟩


/-! ## Claim C4: recursive `extends` -/

/-- A config document whose `extends` entry names its own file. -/
def selfExtendDoc : YVal := .map [(.str "extends", .str "a.yml")]

/-- An environment with exactly one config file, `/w/a.yml`, whose
parsed contents are `selfExtendDoc` itself. -/
def selfExtendEnv : EnvIface :=
  { cwd := "/w"
    readDoc := fun p => if p == "/w/a.yml" then .ok selfExtendDoc else .error "missing file"
    pathExists := fun p => p == "/w/a.yml" }

/-- C4: the loader has no re-entry detection — no set of visited paths
is threaded through `extend_from_entry` — so loading the self-extending
config `/w/a.yml` (`extends: a.yml`, which resolves back to
`/w/a.yml`) recurses unboundedly: for every fuel bound the fuel-indexed
embedding of `from_yaml_str_with_env` fails to complete.  The Rust
code, which has no bound at all, never returns on this input. -/
theorem C4_self_extends_never_terminates :
    ∀ fuel : Nat, loadCfg fuel selfExtendDoc (some selfExtendEnv) (some "/w") = none := by
  intro fuel
  induction fuel with
  | zero => rfl
  | succ n ih =>
    have h1 : applyExtendsF (fun d e b => loadCfg n d e b) LintConfig.default
        (.str "a.yml") (some selfExtendEnv) (some "/w") = none := by
      show (match loadCfg n selfExtendDoc (some selfExtendEnv) (some "/w") with
        | none => (none : Option (Except String LintConfig))
        | some (.error err) => some (.error err)
        | some (.ok b) => some (.ok (mergeFrom LintConfig.default b))) = none
      rw [ih]
    show (match applyExtendsF (fun d e b => loadCfg n d e b) LintConfig.default
        (.str "a.yml") (some selfExtendEnv) (some "/w") with
      | none => (none : Option (Except String LintConfig))
      | some (.error e) => some (.error e)
      | some (.ok cfg) => some (loadRest selfExtendDoc cfg)) = none
    rw [h1]

/-! ## Claim C7: built-in presets -/

/-- C7: the bundled presets are placeholders, not the full rule set.
Loading `default` produces exactly the rules `trailing-spaces` and
`document-end` — in particular no `anchors` rule, which the repository
own tests (`config.rs` test `extends_sequence_skips_non_strings` and
`tests/config_env_missing.rs`) expect the default preset to contain;
`relaxed` only disables `trailing-spaces`; `empty` enables nothing. -/
theorem C7_builtin_presets_are_placeholders :
    builtin "default" = some defaultPresetDoc ∧
    (loadCfg 2 defaultPresetDoc none none).map (Except.map LintConfig.rule_names) =
      some (.ok ["trailing-spaces", "document-end"]) ∧
    ¬("anchors" ∈ (["trailing-spaces", "document-end"] : List String)) ∧
    (loadCfg 2 relaxedPresetDoc none none).map
        (Except.map fun c => (c.rule_names, rulesGet c.rules "trailing-spaces")) =
      some (.ok (["trailing-spaces"], some (.str "disable"))) ∧
    (loadCfg 2 emptyPresetDoc none none).map (Except.map LintConfig.rule_names) =
      some (.ok ([] : List String)) := ⟨rfl, rfl, by decide, rfl, rfl⟩

/-! ## Claim C6: `ignore` / `ignore-from-file` conflict -/

/-- A document carrying both conflicting keys *and* an `extends` entry
that cannot be resolved without an environment. -/
def conflictWithExtendsDoc : YVal :=
  .map [(.str "extends", .str "nope"), (.str "ignore", .seq [.str "a"]),
        (.str "ignore-from-file", .seq [.str "b"])]

/-- C6 counterexample: a document in which both keys are present can
fail with a different message — `extends` is processed first, so its
error preempts the conflict message. -/
theorem C6_extends_error_preempts_conflict :
    (conflictWithExtendsDoc.getKey "ignore").isSome = true ∧
    (conflictWithExtendsDoc.getKey "ignore-from-file").isSome = true ∧
    loadCfg 1 conflictWithExtendsDoc none none =
      some (.error "invalid config: extends \x27nope\x27 requires filesystem access for resolution") ∧
    ("invalid config: extends \x27nope\x27 requires filesystem access for resolution" ≠
      "invalid config: ignore and ignore-from-file keys cannot be used together") :=
  ⟨rfl, rfl, rfl, by decide⟩

/-- C6 (amended): whenever both `ignore` and `ignore-from-file` appear
at top level no `LintConfig` is ever produced; the post-`extends` part
of the loader fails with exactly the documented message, so the whole
parse reports that exact message whenever `extends` processing does not
fail first (in particular whenever `extends` is absent). -/
theorem C6_conflict_never_yields_config :
    ∀ (fuel : Nat) (doc : YVal) (env : Option EnvIface) (base : Option String)
      (cfg : LintConfig),
      (doc.getKey "ignore").isSome = true →
      (doc.getKey "ignore-from-file").isSome = true →
      ((∀ c, loadCfg fuel doc env base ≠ some (.ok c)) ∧
        loadRest doc cfg =
          .error "invalid config: ignore and ignore-from-file keys cannot be used together" ∧
        (doc.getKey "extends" = none → 0 < fuel →
          loadCfg fuel doc env base =
            some (.error
              "invalid config: ignore and ignore-from-file keys cannot be used together"))) := by
  intro fuel doc env base cfg h1 h2
  have hrest : ∀ c', loadRest doc c' =
      .error "invalid config: ignore and ignore-from-file keys cannot be used together" := by
    intro c'
    simp only [loadRest, h1, h2, Bool.and_self, if_true]
    rfl
  obtain ⟨m, hm⟩ : ∃ m, doc.asMapping = some m := by
    cases doc <;> simp_all [YVal.getKey, YVal.asMapping]
  refine ⟨?_, hrest cfg, ?_⟩
  · intro c hc
    cases fuel with
    | zero => simp [loadCfg] at hc
    | succ n =>
      unfold loadCfg at hc
      rw [hm] at hc
      simp only [Option.isNone_some, Bool.false_eq_true, if_false] at hc
      split at hc
      · exact absurd hc (by simp)
      · exact absurd hc (by simp)
      · rename_i cfg2 heq
        rw [hrest cfg2] at hc
        simp at hc
  · intro hext hf
    cases fuel with
    | zero => omega
    | succ n =>
      unfold loadCfg
      rw [hm, hext]
      simp only [Option.isNone_some, Bool.false_eq_true, if_false]
      rw [hrest LintConfig.default]

/-- A document with only the two conflicting keys. -/
def conflictOnlyDoc : YVal :=
  .map [(.str "ignore", .seq [.str "a"]), (.str "ignore-from-file", .seq [.str "b"])]

/-- Witness for C6 (amended) at `conflictOnlyDoc` with one unit of
fuel, no environment and the default starting config. -/
theorem C6_conflict_never_yields_config_witness :
    ((conflictOnlyDoc.getKey "ignore").isSome = true) ∧
    ((conflictOnlyDoc.getKey "ignore-from-file").isSome = true) ∧
    ((∀ c, loadCfg 1 conflictOnlyDoc none none ≠ some (.ok c)) ∧
      loadRest conflictOnlyDoc LintConfig.default =
        .error "invalid config: ignore and ignore-from-file keys cannot be used together" ∧
      (conflictOnlyDoc.getKey "extends" = none → 0 < 1 →
        loadCfg 1 conflictOnlyDoc none none =
          some (.error
            "invalid config: ignore and ignore-from-file keys cannot be used together"))) :=
  ⟨rfl, rfl, C6_conflict_never_yields_config 1 conflictOnlyDoc none none
    LintConfig.default rfl rfl⟩

/-! ## Claim C1: diagnostic ordering of `lint_file` -/

/-- Rule levels enabling exactly `new-line-at-end-of-file` and
`trailing-spaces` at error level. -/
def lvlC1 : String → Option RuleLevel := fun id =>
  if id == "new-line-at-end-of-file" || id == "trailing-spaces" then some .error else none

/-- External rule checks that report nothing. -/
def extChecksNone : ExternalChecks :=
  ⟨fun _ => [], fun _ => [], fun _ => [], fun _ => [], fun _ => [], fun _ => []⟩

/-- A parser oracle for content that parses cleanly. -/
def parseOk : String → Option SyntaxErr := fun _ => none

/-- C1: on the cleanly-parsing buffer `"a: 1 \nb: 2"` (trailing space
on line 1, no final newline) `lint_file` returns the diagnostics in
rule-registration order — the missing-newline diagnostic at (2,5)
before the trailing-space diagnostic at (1,5) — because no sort by
`(line, column)` is ever performed; the result is not sorted. -/
theorem C1_lint_file_output_not_sorted :
    lintFile lvlC1 (fun _ => false) extChecksNone parseOk "a: 1 \nb: 2" =
      [⟨2, 5, .error, "no new line character at the end of file", some "new-line-at-end-of-file"⟩,
       ⟨1, 5, .error, "trailing spaces", some "trailing-spaces"⟩] ∧
    sortedByLineCol
      [⟨2, 5, .error, "no new line character at the end of file", some "new-line-at-end-of-file"⟩,
       ⟨1, 5, .error, "trailing spaces", some "trailing-spaces"⟩] = false := ⟨rfl, rfl⟩

/-! ## Claim C2: syntax-error shadowing -/

/-- C2: whenever the parser reports a fatal error, `lint_file` discards
every rule diagnostic and returns exactly one problem, built from the
error marker: level `Error`, rule `None`, message
`"syntax error: <info> (syntax)"`, which ends with `"(syntax)"`. -/
theorem C2_syntax_error_shadows_all :
    ∀ (lvl : String → Option RuleLevel) (ign : String → Bool) (ext : ExternalChecks)
      (parse : String → Option SyntaxErr) (content : String) (l c : Nat) (info : String),
      parse content = some ⟨l, c, info⟩ →
      (lintFile lvl ign ext parse content =
        [⟨l, c + 1, .error, "syntax error: " ++ info ++ " (syntax)", none⟩] ∧
       ∃ pre, "syntax error: " ++ info ++ " (syntax)" = pre ++ "(syntax)") := by
  intro lvl ign ext parse content l c info h
  constructor
  · simp only [lintFile, h]
  · refine ⟨"syntax error: " ++ info ++ " ", ?_⟩
    have h1 : (" " : String) ++ "(syntax)" = " (syntax)" := rfl
    exact (by rw [String.append_assoc, h1] :
      (("syntax error: " ++ info) ++ " ") ++ "(syntax)" =
        ("syntax error: " ++ info) ++ " (syntax)").symm

/-- Rule levels enabling every rule, for the C2 witness. -/
def lvlAll : String → Option RuleLevel := fun _ => some .error

/-- External rule checks that do report hits (discarded by the syntax
diagnostic in the witness). -/
def extChecksJunk : ExternalChecks :=
  ⟨fun _ => [⟨1, 1, "junk"⟩], fun _ => [⟨3, 1, "junk"⟩], fun _ => [], fun _ => [],
   fun _ => [], fun _ => []⟩

/-- A parser oracle reporting a fatal error at (2,5). -/
def parseFail : String → Option SyntaxErr :=
  fun _ => some ⟨2, 5, "mapping values are not allowed in this context"⟩

/-- Witness for C2 on a buffer whose parse fails at (2,5) while the
rule checks produce diagnostics (all discarded). -/
theorem C2_syntax_error_shadows_all_witness :
    parseFail "a: [1\n" = some ⟨2, 5, "mapping values are not allowed in this context"⟩ ∧
    (lintFile lvlAll (fun _ => false) extChecksJunk parseFail "a: [1\n" =
      [⟨2, 5 + 1, .error,
        "syntax error: " ++ "mapping values are not allowed in this context" ++ " (syntax)",
        none⟩] ∧
     ∃ pre, "syntax error: " ++ "mapping values are not allowed in this context" ++
        " (syntax)" = pre ++ "(syntax)") :=
  ⟨rfl, C2_syntax_error_shadows_all lvlAll (fun _ => false) extChecksJunk parseFail
    "a: [1\n" 2 5 "mapping values are not allowed in this context" rfl⟩

/-! ## Claim C3: strict-mode exit code -/

/-- A single file whose diagnostics are one warning. -/
def warnOnlyResults : List (Except String (List LintProblem)) :=
  [.ok [⟨1, 1, .warning, "w", some "r"⟩]]

/-- C3 counterexample: a strict-mode run with one warning and no error
exits with code 2, not 1. -/
theorem C3_strict_warning_exits_two_counterexample :
    processResults warnOnlyResults false = (false, true) ∧
    mainExitCode true false warnOnlyResults = 2 ∧ (2 : Nat) ≠ 1 := ⟨rfl, rfl, by decide⟩

/-- C3 (amended): in strict mode, a run whose results carry at least
one warning and no error exits with code 2 (code 1 is produced only
when an error is present). -/
theorem C3_strict_warning_exit_code :
    ∀ (results : List (Except String (List LintProblem))) (noWarnings : Bool),
      (processResults results noWarnings).1 = false →
      (processResults results noWarnings).2 = true →
      mainExitCode true noWarnings results = 2 := by
  intro results nw h1 h2
  simp [mainExitCode, h1, h2]

/-- Witness for C3 (amended) on the single-warning run. -/
theorem C3_strict_warning_exit_code_witness :
    (processResults warnOnlyResults false).1 = false ∧
    (processResults warnOnlyResults false).2 = true ∧
    mainExitCode true false warnOnlyResults = 2 :=
  ⟨rfl, rfl, C3_strict_warning_exit_code warnOnlyResults false rfl rfl⟩


/-! ## Claim C5: idempotence of repeated `extends` -/

/-- The extended target X: a config contributing one ignore pattern. -/
def ignoreOnlyDoc : YVal := .map [(.str "ignore", .seq [.str "a"])]

/-- An environment with the single config file `/w/x.yml` parsing to
`ignoreOnlyDoc`. -/
def ignoreOnlyEnv : EnvIface :=
  { cwd := "/w"
    readDoc := fun p => if p == "/w/x.yml" then .ok ignoreOnlyDoc else .error "missing file"
    pathExists := fun p => p == "/w/x.yml" }

/-- `extends: x.yml`. -/
def extendOnceDoc : YVal := .map [(.str "extends", .str "x.yml")]

/-- `extends: [x.yml, x.yml]`. -/
def extendTwiceDoc : YVal := .map [(.str "extends", .seq [.str "x.yml", .str "x.yml"])]

/-- C5 counterexample: applying the same target twice duplicates its
ignore patterns (`merge_from` appends `other.ignore_patterns` on every
application), so the resulting `LintConfig` is not equal to the
single-application one. -/
theorem C5_double_extends_duplicates_ignore_patterns :
    (loadCfg 2 extendTwiceDoc (some ignoreOnlyEnv) (some "/w")).map
        (Except.map LintConfig.ignore_patterns) = some (.ok ["a", "a"]) ∧
    (loadCfg 2 extendOnceDoc (some ignoreOnlyEnv) (some "/w")).map
        (Except.map LintConfig.ignore_patterns) = some (.ok ["a"]) ∧
    (["a", "a"] : List String) ≠ ["a"] := ⟨rfl, rfl, by decide⟩

/-! ## Deep-merge idempotence (claim C5, amended) -/


/-- The string keys of a YAML mapping (non-string keys carry no key in
the deep merge and are skipped). -/
def strKeys (kvs : List (YVal × YVal)) : List String :=
  kvs.filterMap fun kv => kv.1.asStr

/-- Parser-shaped YAML values: every mapping has pairwise-distinct
string keys.  Only such values make the deep merge idempotent (a
mapping with a duplicated key is merged entry by entry and does not
absorb a second application). -/
def WfY : YVal → Prop
  | .map kvs => (strKeys kvs).Nodup ∧ ∀ kv ∈ kvs, WfY kv.2
  | _ => True
termination_by v => sizeOf v
decreasing_by
  simp_wf
  have h1 := List.sizeOf_lt_of_mem (by assumption : kv ∈ kvs)
  cases kv with
  | mk a b => simp at h1 ⊢; omega

/-- Lookup distributes over appending mapping entries. -/
theorem ymGetVal_append (d e : List (YVal × YVal)) (s : String) :
    ymGetVal (d ++ e) s =
      match ymGetVal d s with
      | some v => some v
      | none => ymGetVal e s := by
  induction d with
  | nil => rfl
  | cons kv rest ih =>
    obtain ⟨k, v⟩ := kv
    by_cases h : isKey k s
    · simp [ymGetVal, h]
    · simp only [List.cons_append, ymGetVal, h, Bool.false_eq_true, if_false]
      exact ih



/-- `isKey` against a key known to be the string `s`. -/
theorem isKey_str_iff {k : YVal} {s t : String} (hk : k.asStr = some s) :
    isKey k t = (s == t) := by
  cases k <;> simp_all [YVal.asStr, isKey]

/-- `mergeAt` leaves lookups of other keys unchanged. -/
theorem mergeAt_get_other {d : List (YVal × YVal)} {s t : String} (hne : s ≠ t) (v : YVal) :
    ymGetVal (mergeAt d s v) t = ymGetVal d t := by
  induction d with
  | nil => simp [mergeAt]
  | cons kv rest ih =>
    obtain ⟨k, w⟩ := kv
    by_cases h : isKey k s
    · have hks : k.asStr = some s := by
        cases k <;> simp_all [isKey, YVal.asStr]
      have hkt : isKey k t = false := by
        rw [isKey_str_iff hks]
        simp [hne]
      simp [mergeAt, h, ymGetVal, hkt]
    · simp [mergeAt, h, ymGetVal, ih]

/-- `mergeAt` merges into the looked-up entry. -/
theorem mergeAt_get_self {d : List (YVal × YVal)} {s : String} {u : YVal}
    (hu : ymGetVal d s = some u) (v : YVal) :
    ymGetVal (mergeAt d s v) s = some (deepMerge u v) := by
  induction d with
  | nil => simp [ymGetVal] at hu
  | cons kv rest ih =>
    obtain ⟨k, w⟩ := kv
    by_cases h : isKey k s
    · simp only [ymGetVal, h, if_true] at hu
      injection hu with hu
      subst hu
      simp [mergeAt, h, ymGetVal]
    · simp only [ymGetVal, h, Bool.false_eq_true, if_false] at hu
      simp [mergeAt, h, ymGetVal, ih hu]

/-- `mergeAt` is the identity when the merged value is absorbed. -/
theorem mergeAt_id {d : List (YVal × YVal)} {s : String} {u v : YVal}
    (hu : ymGetVal d s = some u) (hid : deepMerge u v = u) :
    mergeAt d s v = d := by
  induction d with
  | nil => simp [mergeAt]
  | cons kv rest ih =>
    obtain ⟨k, w⟩ := kv
    by_cases h : isKey k s
    · simp only [ymGetVal, h, if_true] at hu
      injection hu with hu
      subst hu
      simp [mergeAt, h, hid]
    · simp only [ymGetVal, h, Bool.false_eq_true, if_false] at hu
      simp [mergeAt, h, ih hu]

/-- `strKeys` skips a non-string key. -/
theorem strKeys_cons_none {k : YVal} {v : YVal} {rest : List (YVal × YVal)}
    (hk : k.asStr = none) : strKeys ((k, v) :: rest) = strKeys rest := by
  simp [strKeys, List.filterMap_cons, hk]

/-- `strKeys` collects a string key. -/
theorem strKeys_cons_some {k : YVal} {v : YVal} {rest : List (YVal × YVal)} {s : String}
    (hk : k.asStr = some s) : strKeys ((k, v) :: rest) = s :: strKeys rest := by
  simp [strKeys, List.filterMap_cons, hk]

/-- A string-keyed entry contributes its key to `strKeys`. -/
theorem mem_strKeys {kvs : List (YVal × YVal)} {k v : YVal} {t : String}
    (h : (k, v) ∈ kvs) (ht : k.asStr = some t) : t ∈ strKeys kvs :=
  List.mem_filterMap.mpr ⟨(k, v), h, ht⟩

/-- In a mapping with distinct string keys, membership determines the
lookup result. -/
theorem nodup_getVal {kvs : List (YVal × YVal)} (hnd : (strKeys kvs).Nodup)
    {k v : YVal} {t : String} (hm : (k, v) ∈ kvs) (ht : k.asStr = some t) :
    ymGetVal kvs t = some v := by
  induction kvs with
  | nil => simp at hm
  | cons kv0 rest ih =>
    obtain ⟨k0, v0⟩ := kv0
    rcases List.mem_cons.mp hm with hhead | htail
    · injection hhead with e1 e2
      subst e1; subst e2
      have : isKey k t = true := by rw [isKey_str_iff ht]; simp
      simp [ymGetVal, this]
    · by_cases h0 : isKey k0 t
      · exfalso
        have hk0 : k0.asStr = some t := by
          cases k0 <;> simp_all [isKey, YVal.asStr]
        rw [strKeys_cons_some hk0] at hnd
        exact (List.nodup_cons.mp hnd).1 (mem_strKeys htail ht)
      · cases hk0 : k0.asStr with
        | none =>
          rw [strKeys_cons_none hk0] at hnd
          simp [ymGetVal, h0, ih hnd htail]
        | some s0 =>
          rw [strKeys_cons_some hk0] at hnd
          simp [ymGetVal, h0, ih (List.nodup_cons.mp hnd).2 htail]



/-- `deepMergeList` does not change lookups of keys the source list
does not mention. -/
theorem deepMergeList_get_other {t : String} :
    ∀ (l d : List (YVal × YVal)), t ∉ strKeys l →
      ymGetVal (deepMergeList d l) t = ymGetVal d t := by
  intro l
  induction l with
  | nil =>
    intro d _
    simp [deepMergeList]
  | cons kv rest ih =>
    intro d hft
    obtain ⟨k, v⟩ := kv
    cases hk : k.asStr with
    | none =>
      rw [strKeys_cons_none hk] at hft
      simp only [deepMergeList, hk]
      exact ih d hft
    | some s =>
      rw [strKeys_cons_some hk] at hft
      have hst : s ≠ t := fun h => hft (h ▸ List.mem_cons_self _ _)
      have hft' : t ∉ strKeys rest := fun h => hft (List.mem_cons_of_mem _ h)
      simp only [deepMergeList, hk]
      by_cases hhas : (ymGetVal d s).isSome
      · rw [if_pos hhas, ih _ hft', mergeAt_get_other hst]
      · rw [if_neg hhas, ih _ hft', ymGetVal_append]
        have : isKey (YVal.str s) t = false := by simp [isKey, hst]
        cases hd : ymGetVal d t <;> simp [ymGetVal, this]

/-- Applying the same source entry list twice is the same as applying
it once, provided its keys are distinct and its values absorb. -/
theorem deepMergeList_absorb :
    ∀ (l d : List (YVal × YVal)), (strKeys l).Nodup →
      (∀ kv ∈ l, ∀ z, deepMerge (deepMerge z kv.2) kv.2 = deepMerge z kv.2) →
      (∀ kv ∈ l, deepMerge kv.2 kv.2 = kv.2) →
      deepMergeList (deepMergeList d l) l = deepMergeList d l := by
  intro l
  induction l with
  | nil =>
    intro d _ _ _
    simp [deepMergeList]
  | cons kv rest ih =>
    intro d hnd hA hS
    obtain ⟨k, v⟩ := kv
    cases hk : k.asStr with
    | none =>
      simp only [deepMergeList, hk]
      exact ih d (by rwa [strKeys_cons_none hk] at hnd)
        (fun kv h => hA kv (List.mem_cons_of_mem _ h))
        (fun kv h => hS kv (List.mem_cons_of_mem _ h))
    | some s =>
      rw [strKeys_cons_some hk] at hnd
      have hs_rest : s ∉ strKeys rest := (List.nodup_cons.mp hnd).1
      have hnd' : (strKeys rest).Nodup := (List.nodup_cons.mp hnd).2
      have hA' := fun kv h => hA kv (List.mem_cons_of_mem _ h)
      have hS' := fun kv h => hS kv (List.mem_cons_of_mem _ h)
      simp only [deepMergeList, hk]
      by_cases hhas : (ymGetVal d s).isSome
      · rw [if_pos hhas]
        obtain ⟨u, hu⟩ := Option.isSome_iff_exists.mp hhas
        have hgF : ymGetVal (deepMergeList (mergeAt d s v) rest) s = some (deepMerge u v) := by
          rw [deepMergeList_get_other rest _ hs_rest, mergeAt_get_self hu]
        rw [if_pos (by rw [hgF]; rfl)]
        rw [mergeAt_id hgF (hA (k, v) (List.mem_cons_self _ _) u)]
        exact ih (mergeAt d s v) hnd' hA' hS'
      · rw [if_neg hhas]
        have hdnone : ymGetVal d s = none := by
          cases h : ymGetVal d s
          · rfl
          · rw [h] at hhas; simp at hhas
        have hgF : ymGetVal (deepMergeList (d ++ [(YVal.str s, v)]) rest) s = some v := by
          rw [deepMergeList_get_other rest _ hs_rest, ymGetVal_append, hdnone]
          simp [ymGetVal, isKey]
        rw [if_pos (by rw [hgF]; rfl)]
        rw [mergeAt_id hgF (hS (k, v) (List.mem_cons_self _ _))]
        exact ih (d ++ [(YVal.str s, v)]) hnd' hA' hS'

/-- Merging a mapping entry list into a mapping that already contains
exactly those entries changes nothing. -/
theorem deepMergeList_self_aux :
    ∀ (l s : List (YVal × YVal)), (strKeys s).Nodup →
      (∀ kv ∈ l, kv ∈ s) →
      (∀ kv ∈ l, deepMerge kv.2 kv.2 = kv.2) →
      deepMergeList s l = s := by
  intro l
  induction l with
  | nil =>
    intro s _ _ _
    simp [deepMergeList]
  | cons kv rest ih =>
    intro s hnd hsub hS
    obtain ⟨k, v⟩ := kv
    cases hk : k.asStr with
    | none =>
      simp only [deepMergeList, hk]
      exact ih s hnd (fun kv h => hsub kv (List.mem_cons_of_mem _ h))
        (fun kv h => hS kv (List.mem_cons_of_mem _ h))
    | some t =>
      have hget : ymGetVal s t = some v :=
        nodup_getVal hnd (hsub (k, v) (List.mem_cons_self _ _)) hk
      simp only [deepMergeList, hk]
      rw [if_pos (by simp [hget])]
      rw [mergeAt_id hget (hS (k, v) (List.mem_cons_self _ _))]
      exact ih s hnd (fun kv h => hsub kv (List.mem_cons_of_mem _ h))
        (fun kv h => hS kv (List.mem_cons_of_mem _ h))



/-- `deep_merge_yaml_owned` on two mappings. -/
theorem deepMerge_map_map (d s : List (YVal × YVal)) :
    deepMerge (.map d) (.map s) = .map (deepMergeList d s) := by
  simp [deepMerge]

/-- A non-mapping source replaces the destination wholesale. -/
theorem deepMerge_of_src_nonmap (w : YVal) (h : w.asMapping = none) (z : YVal) :
    deepMerge z w = w := by
  cases z <;> cases w <;> simp_all [deepMerge, YVal.asMapping]

/-- A non-mapping destination is replaced by the source wholesale. -/
theorem deepMerge_of_dst_nonmap (z : YVal) (h : z.asMapping = none) (w : YVal) :
    deepMerge z w = w := by
  cases z <;> cases w <;> simp_all [deepMerge, YVal.asMapping]

/-- Idempotence of the deep merge on parser-shaped values, by strong
induction on the size of the source value: merging the same source a
second time changes nothing, and a well-formed value merged into
itself is unchanged. -/
theorem deepMerge_props :
    ∀ (N : Nat) (w : YVal), sizeOf w ≤ N → WfY w →
      ((∀ z, deepMerge (deepMerge z w) w = deepMerge z w) ∧ deepMerge w w = w) := by
  intro N
  induction N with
  | zero =>
    intro w h _
    exfalso
    cases w <;> simp_all
  | succ N ih =>
    intro w hsz hwf
    cases w with
    | map kvs =>
      simp only [WfY] at hwf
      have hszv : ∀ kv ∈ kvs, sizeOf kv.2 ≤ N := by
        intro kv h
        have h1 := List.sizeOf_lt_of_mem h
        obtain ⟨a, b⟩ := kv
        simp_all
        omega
      have hmemA : ∀ kv ∈ kvs, ∀ z, deepMerge (deepMerge z kv.2) kv.2 = deepMerge z kv.2 :=
        fun kv h z => ((ih kv.2 (hszv kv h) (hwf.2 kv h)).1 z)
      have hmemS : ∀ kv ∈ kvs, deepMerge kv.2 kv.2 = kv.2 :=
        fun kv h => (ih kv.2 (hszv kv h) (hwf.2 kv h)).2
      have hself : deepMerge (.map kvs) (.map kvs) = .map kvs := by
        rw [deepMerge_map_map]
        exact congrArg _ (deepMergeList_self_aux kvs kvs hwf.1 (fun kv h => h) hmemS)
      refine ⟨?_, hself⟩
      intro z
      cases z with
      | map d =>
        rw [deepMerge_map_map, deepMerge_map_map]
        exact congrArg _ (deepMergeList_absorb kvs d hwf.1 hmemA hmemS)
      | str a =>
        rw [deepMerge_of_dst_nonmap (YVal.str a) rfl]
        exact hself
      | int a =>
        rw [deepMerge_of_dst_nonmap (YVal.int a) rfl]
        exact hself
      | bool a =>
        rw [deepMerge_of_dst_nonmap (YVal.bool a) rfl]
        exact hself
      | null =>
        rw [deepMerge_of_dst_nonmap YVal.null rfl]
        exact hself
      | seq a =>
        rw [deepMerge_of_dst_nonmap (YVal.seq a) rfl]
        exact hself
    | str s =>
      refine ⟨fun z => ?_, deepMerge_of_src_nonmap (YVal.str s) rfl _⟩
      rw [deepMerge_of_src_nonmap (YVal.str s) rfl, deepMerge_of_src_nonmap (YVal.str s) rfl]
    | int n =>
      refine ⟨fun z => ?_, deepMerge_of_src_nonmap (YVal.int n) rfl _⟩
      rw [deepMerge_of_src_nonmap (YVal.int n) rfl, deepMerge_of_src_nonmap (YVal.int n) rfl]
    | bool b =>
      refine ⟨fun z => ?_, deepMerge_of_src_nonmap (YVal.bool b) rfl _⟩
      rw [deepMerge_of_src_nonmap (YVal.bool b) rfl, deepMerge_of_src_nonmap (YVal.bool b) rfl]
    | null =>
      refine ⟨fun z => ?_, deepMerge_of_src_nonmap YVal.null rfl _⟩
      rw [deepMerge_of_src_nonmap YVal.null rfl, deepMerge_of_src_nonmap YVal.null rfl]
    | seq xs =>
      refine ⟨fun z => ?_, deepMerge_of_src_nonmap (YVal.seq xs) rfl _⟩
      rw [deepMerge_of_src_nonmap (YVal.seq xs) rfl, deepMerge_of_src_nonmap (YVal.seq xs) rfl]

/-- Merging the same well-formed source twice equals merging it once. -/
theorem deepMerge_absorb {w : YVal} (hwf : WfY w) (z : YVal) :
    deepMerge (deepMerge z w) w = deepMerge z w :=
  (deepMerge_props (sizeOf w) w (Nat.le_refl _) hwf).1 z

/-- A well-formed value deep-merged into itself is unchanged. -/
theorem deepMerge_self {w : YVal} (hwf : WfY w) : deepMerge w w = w :=
  (deepMerge_props (sizeOf w) w (Nat.le_refl _) hwf).2



/-- The rules-map in-place merge leaves other keys unchanged. -/
theorem rulesGet_mergeAt_other {rs : List (String × YVal)} {n t : String}
    (hne : n ≠ t) (v : YVal) : rulesGet (rulesMergeAt rs n v) t = rulesGet rs t := by
  induction rs with
  | nil => rfl
  | cons kv rest ih =>
    obtain ⟨k, w⟩ := kv
    by_cases h : k == n
    · have hk : k = n := by simpa using h
      subst hk
      simp [rulesMergeAt, rulesGet, hne, h]
    · simp [rulesMergeAt, rulesGet, h, ih]

/-- The rules-map in-place merge deep-merges the looked-up entry. -/
theorem rulesGet_mergeAt_self {rs : List (String × YVal)} {n : String} {u : YVal}
    (hu : rulesGet rs n = some u) (v : YVal) :
    rulesGet (rulesMergeAt rs n v) n = some (deepMerge u v) := by
  induction rs with
  | nil => simp [rulesGet] at hu
  | cons kv rest ih =>
    obtain ⟨k, w⟩ := kv
    by_cases h : k == n
    · simp only [rulesGet, h, if_true] at hu
      injection hu with hu
      subst hu
      simp [rulesMergeAt, rulesGet, h]
    · simp only [rulesGet, h, Bool.false_eq_true, if_false] at hu
      simp [rulesMergeAt, rulesGet, h, ih hu]

/-- The rules-map in-place merge is the identity when absorbed. -/
theorem rulesMergeAt_id {rs : List (String × YVal)} {n : String} {u v : YVal}
    (hu : rulesGet rs n = some u) (hid : deepMerge u v = u) :
    rulesMergeAt rs n v = rs := by
  induction rs with
  | nil => rfl
  | cons kv rest ih =>
    obtain ⟨k, w⟩ := kv
    by_cases h : k == n
    · simp only [rulesGet, h, if_true] at hu
      injection hu with hu
      subst hu
      simp [rulesMergeAt, h, hid]
    · simp only [rulesGet, h, Bool.false_eq_true, if_false] at hu
      simp [rulesMergeAt, h, ih hu]

/-- Sorted insertion leaves lookups of other keys unchanged. -/
theorem rulesGet_insert_other {rs : List (String × YVal)} {n t : String}
    (hne : n ≠ t) (v : YVal) : rulesGet (rulesInsert rs n v) t = rulesGet rs t := by
  induction rs with
  | nil => simp [rulesInsert, rulesGet, hne]
  | cons kv rest ih =>
    obtain ⟨k, w⟩ := kv
    by_cases h : strLt n k
    · simp [rulesInsert, h, rulesGet, hne]
    · simp [rulesInsert, h, rulesGet, ih]

/-- Sorted insertion of an absent key makes it found. -/
theorem rulesGet_insert_self {rs : List (String × YVal)} {n : String}
    (habs : rulesGet rs n = none) (v : YVal) :
    rulesGet (rulesInsert rs n v) n = some v := by
  induction rs with
  | nil => simp [rulesInsert, rulesGet]
  | cons kv rest ih =>
    obtain ⟨k, w⟩ := kv
    by_cases hlt : strLt n k
    · simp [rulesInsert, hlt, rulesGet]
    · by_cases h : k == n
      · simp [rulesGet, h] at habs
      · simp only [rulesGet, h, Bool.false_eq_true, if_false] at habs
        simp [rulesInsert, hlt, rulesGet, h, ih habs]



/-- The `merge_from` rules loop does not change lookups of keys the
merged list does not mention. -/
theorem mergeRules_get_other {t : String} :
    ∀ (l : List (String × YVal)) (rs : List (String × YVal)) (names : List String),
      t ∉ l.map Prod.fst →
      rulesGet (mergeRules rs names l).1 t = rulesGet rs t := by
  intro l
  induction l with
  | nil =>
    intro rs names _
    rfl
  | cons kv rest ih =>
    intro rs names hm
    obtain ⟨n, v⟩ := kv
    have hne : n ≠ t := fun h => hm (by simp [h])
    have hm' : t ∉ rest.map Prod.fst := fun h => hm (by simp; right; exact (by simpa using h))
    simp only [mergeRules]
    by_cases hhas : (rulesGet rs n).isSome
    · rw [if_pos hhas, ih _ _ hm', rulesGet_mergeAt_other hne]
    · rw [if_neg hhas, ih _ _ hm', rulesGet_insert_other hne]

/-- The `merge_from` rules loop only ever appends rule names. -/
theorem mergeRules_names_mono {x : String} :
    ∀ (l : List (String × YVal)) (rs : List (String × YVal)) (names : List String),
      x ∈ names → x ∈ (mergeRules rs names l).2 := by
  intro l
  induction l with
  | nil =>
    intro rs names hx
    exact hx
  | cons kv rest ih =>
    intro rs names hx
    obtain ⟨n, v⟩ := kv
    simp only [mergeRules]
    by_cases hc : names.contains n
    · by_cases hhas : (rulesGet rs n).isSome
      · rw [if_pos hhas]
        simp only [hc, if_true]
        exact ih _ _ hx
      · rw [if_neg hhas]
        simp only [hc, if_true]
        exact ih _ _ hx
    · by_cases hhas : (rulesGet rs n).isSome
      · rw [if_pos hhas]
        simp only [hc, Bool.false_eq_true, if_false]
        exact ih _ _ (List.mem_append_left _ hx)
      · rw [if_neg hhas]
        simp only [hc, Bool.false_eq_true, if_false]
        exact ih _ _ (List.mem_append_left _ hx)

/-- The `merge_from` rules loop is idempotent: a second pass over the
same (distinct-keyed, absorbing) rule list changes neither the rules
map nor the accumulated names. -/
theorem mergeRules_absorb :
    ∀ (l : List (String × YVal)) (rs : List (String × YVal)) (names : List String),
      (l.map Prod.fst).Nodup →
      (∀ kv ∈ l, ∀ z, deepMerge (deepMerge z kv.2) kv.2 = deepMerge z kv.2) →
      (∀ kv ∈ l, deepMerge kv.2 kv.2 = kv.2) →
      mergeRules (mergeRules rs names l).1 (mergeRules rs names l).2 l =
        mergeRules rs names l := by
  intro l
  induction l with
  | nil =>
    intro rs names _ _ _
    rfl
  | cons kv rest ih =>
    intro rs names hnd hA hS
    obtain ⟨n, v⟩ := kv
    rw [List.map_cons] at hnd
    have hn_rest : n ∉ rest.map Prod.fst := (List.nodup_cons.mp hnd).1
    have hnd' : (rest.map Prod.fst).Nodup := (List.nodup_cons.mp hnd).2
    have hA' := fun kv h => hA kv (List.mem_cons_of_mem _ h)
    have hS' := fun kv h => hS kv (List.mem_cons_of_mem _ h)
    have hn_in : n ∈ (if names.contains n then names else names ++ [n]) := by
      by_cases hc : names.contains n
      · rw [if_pos hc]
        exact List.mem_of_elem_eq_true hc
      · rw [if_neg hc]
        exact List.mem_append_right _ (List.mem_singleton.mpr rfl)
    simp only [mergeRules]
    by_cases hhas : (rulesGet rs n).isSome
    · rw [if_pos hhas]
      obtain ⟨u, hu⟩ := Option.isSome_iff_exists.mp hhas
      have hgF : rulesGet (mergeRules (rulesMergeAt rs n v)
          (if names.contains n then names else names ++ [n]) rest).1 n =
            some (deepMerge u v) := by
        rw [mergeRules_get_other rest _ _ hn_rest, rulesGet_mergeAt_self hu]
      have hnF : n ∈ (mergeRules (rulesMergeAt rs n v)
          (if names.contains n then names else names ++ [n]) rest).2 :=
        mergeRules_names_mono _ _ _ hn_in
      rw [if_pos (by rw [hgF]; rfl)]
      rw [rulesMergeAt_id hgF (hA (n, v) (List.mem_cons_self _ _) u)]
      rw [if_pos (List.elem_eq_true_of_mem hnF)]
      exact ih _ _ hnd' hA' hS'
    · rw [if_neg hhas]
      have hdnone : rulesGet rs n = none := by
        cases h : rulesGet rs n
        · rfl
        · rw [h] at hhas
          simp at hhas
      have hgF : rulesGet (mergeRules (rulesInsert rs n v)
          (if names.contains n then names else names ++ [n]) rest).1 n = some v := by
        rw [mergeRules_get_other rest _ _ hn_rest, rulesGet_insert_self hdnone]
      have hnF : n ∈ (mergeRules (rulesInsert rs n v)
          (if names.contains n then names else names ++ [n]) rest).2 :=
        mergeRules_names_mono _ _ _ hn_in
      rw [if_pos (by rw [hgF]; rfl)]
      rw [rulesMergeAt_id hgF (hS (n, v) (List.mem_cons_self _ _))]
      rw [if_pos (List.elem_eq_true_of_mem hnF)]
      exact ih _ _ hnd' hA' hS'



/-- C5 (amended): merging the same extended target `o` twice in a row
(`merge_from` is invoked once per `extends` entry, each time with the
same parsed target) produces the same rule option trees, rule-name
order, yaml-file patterns and locale as merging it once — provided the
target is parser-shaped (distinct string keys, `WfY`) — while the
ignore patterns are appended once per application and therefore
duplicated. -/
theorem C5_repeated_merge_component_idempotence :
    ∀ (s o : LintConfig),
      (o.rules.map Prod.fst).Nodup →
      (∀ kv ∈ o.rules, WfY kv.2) →
      ((mergeFrom (mergeFrom s o) o).rules = (mergeFrom s o).rules ∧
        (mergeFrom (mergeFrom s o) o).rule_names = (mergeFrom s o).rule_names ∧
        (mergeFrom (mergeFrom s o) o).yaml_file_patterns = (mergeFrom s o).yaml_file_patterns ∧
        (mergeFrom (mergeFrom s o) o).locale = (mergeFrom s o).locale ∧
        (mergeFrom (mergeFrom s o) o).ignore_patterns =
          s.ignore_patterns ++ o.ignore_patterns ++ o.ignore_patterns) := by
  intro s o hnd hwf
  have hA : ∀ kv ∈ o.rules, ∀ z, deepMerge (deepMerge z kv.2) kv.2 = deepMerge z kv.2 :=
    fun kv h z => deepMerge_absorb (hwf kv h) z
  have hS : ∀ kv ∈ o.rules, deepMerge kv.2 kv.2 = kv.2 :=
    fun kv h => deepMerge_self (hwf kv h)
  have habs := mergeRules_absorb o.rules s.rules s.rule_names hnd hA hS
  refine ⟨congrArg Prod.fst habs, congrArg Prod.snd habs, ?_, ?_, rfl⟩
  · by_cases h : o.yaml_file_patterns.isEmpty <;> simp [mergeFrom, h]
  · cases hsl : s.locale <;> cases hol : o.locale <;> simp [mergeFrom, hsl, hol]


/-- The extended target for the C5 witness: one rule, one ignore
pattern. -/
def extendTargetW : LintConfig :=
  { ignore_patterns := ["a"]
    ignore_from_files := []
    rule_names := ["trailing-spaces"]
    rules := [("trailing-spaces", .str "enable")]
    yaml_file_patterns := defaultYamlFilePatterns
    locale := none }

/-- Witness for C5 (amended) merging `extendTargetW` twice into the
default config. -/
theorem C5_repeated_merge_component_idempotence_witness :
    ((extendTargetW.rules.map Prod.fst).Nodup ∧
      (∀ kv ∈ extendTargetW.rules, WfY kv.2)) ∧
    ((mergeFrom (mergeFrom LintConfig.default extendTargetW) extendTargetW).rules =
        (mergeFrom LintConfig.default extendTargetW).rules ∧
      (mergeFrom (mergeFrom LintConfig.default extendTargetW) extendTargetW).rule_names =
        (mergeFrom LintConfig.default extendTargetW).rule_names ∧
      (mergeFrom (mergeFrom LintConfig.default extendTargetW) extendTargetW).yaml_file_patterns =
        (mergeFrom LintConfig.default extendTargetW).yaml_file_patterns ∧
      (mergeFrom (mergeFrom LintConfig.default extendTargetW) extendTargetW).locale =
        (mergeFrom LintConfig.default extendTargetW).locale ∧
      (mergeFrom (mergeFrom LintConfig.default extendTargetW) extendTargetW).ignore_patterns =
        LintConfig.default.ignore_patterns ++ extendTargetW.ignore_patterns ++
          extendTargetW.ignore_patterns) := by
  have h1 : (extendTargetW.rules.map Prod.fst).Nodup := by decide
  have h2 : ∀ kv ∈ extendTargetW.rules, WfY kv.2 := by
    intro kv h
    simp only [extendTargetW, List.mem_singleton] at h
    subst h
    simp [WfY]
  exact ⟨⟨h1, h2⟩, C5_repeated_merge_component_idempotence LintConfig.default extendTargetW h1 h2⟩

end Ryl
